import Mathlib

/-!
Verification of the sparse/dense matrix library.

This file embeds the matrix engines of the repository: the generic sparse
engine `MapMatrix` (src/map_matrix.rs) over pluggable key-value stores
(src/map_matrix/hash_map.rs and src/map_matrix/tree_map.rs) with the lazy
transposition wrapper (src/map_matrix/transposable_map.rs), the dense engine
`TableMatrix` (src/table_matrix.rs), the baseline `SimpleMatrix`
(src/base_matrix.rs), and the comparison helpers of src/lib.rs and
src/main.rs.  Values (Rust `f64`) are embedded as rationals, so arithmetic
is exact; machine panics (failed assertions and out-of-bounds `Vec`
indexing) are embedded as `Option` with `none` for a panic.
-/

set_option maxHeartbeats 1000000

/-- Position or dimension pair (row, column); Rust type `Pair = (usize, usize)`
from src/basic.rs.  Rust field `.0` is Lean `.1` and Rust `.1` is Lean `.2`. -/
abbrev Pair := ℕ × ℕ

/-- One stored matrix entry: a position together with its value. -/
abbrev Entry := Pair × ℚ

/-- Point lookup in an association list, first match wins.  This is the common
observable behaviour of `HashMap::get` and `BTreeMap::get` once a map is
represented by its entry list. -/
def assocGet {K V : Type} [DecidableEq K] : List (K × V) → K → Option V
  | [], _ => none
  | e :: rest, k => if e.1 = k then some e.2 else assocGet rest k

/-- Removal by key, the model of `HashMap::remove` / `BTreeMap::remove`. -/
def assocRemove {K V : Type} [DecidableEq K] (m : List (K × V)) (k : K) : List (K × V) :=
  m.eraseP (fun e => decide (e.1 = k))

/-- A list of entries has pairwise distinct keys (true of every real map). -/
def KeysNodup {K V : Type} (m : List (K × V)) : Prop := (m.map Prod.fst).Nodup

/-- Entry list model of `HashMap::insert` (src/map_matrix/hash_map.rs,
`set_or_insert`): the binding for `k` is replaced by `v`.  `HashMap` iteration
order is unspecified, so the model places the fresh binding in front. -/
def hashIns {K V : Type} [DecidableEq K] (m : List (K × V)) (k : K) (v : V) : List (K × V) :=
  (k, v) :: assocRemove m k

/-- Entry list model of `BTreeMap::insert` (src/map_matrix/tree_map.rs,
`set_or_insert`): the binding is placed at its position in key order, or an
existing binding for the same key is replaced in place. -/
def treeIns {K V : Type} [DecidableEq K] (lt : K → K → Bool) :
    List (K × V) → K → V → List (K × V)
  | [], k, v => [(k, v)]
  | e :: rest, k, v =>
    if e.1 = k then (k, v) :: rest
    else if lt k e.1 then (k, v) :: e :: rest
    else e :: treeIns lt rest k v

/-- Entry list model of `HashMapStore::add_to_vec` (src/map_matrix/hash_map.rs):
push `v` onto the vector stored at `k`, creating the vector if absent. -/
def hashAtv {K A : Type} [DecidableEq K] (m : List (K × List A)) (k : K) (v : A) :
    List (K × List A) :=
  (k, ((assocGet m k).getD []) ++ [v]) :: assocRemove m k

/-- Entry list model of `TreeStore::add_to_vec` (src/map_matrix/tree_map.rs):
same as `hashAtv` but the entry list is kept in key order. -/
def treeAtv {K A : Type} [DecidableEq K] (lt : K → K → Bool) :
    List (K × List A) → K → A → List (K × List A)
  | [], k, v => [(k, [v])]
  | e :: rest, k, v =>
    if e.1 = k then (e.1, e.2 ++ [v]) :: rest
    else if lt k e.1 then (k, [v]) :: e :: rest
    else e :: treeAtv lt rest k v

/-- Strict ordering on `Pair` used by `BTreeMap<(usize, usize), _>`:
lexicographic comparison, Rust's derived `Ord` on tuples. -/
def pairLt (p q : Pair) : Bool := p.1 < q.1 || (p.1 = q.1 && p.2 < q.2)

/-- Strict ordering on `usize` keys used by `BTreeMap<usize, _>`. -/
def natLt (a b : ℕ) : Bool := a < b

/-- Interchange snapshot, struct `MatrixInfo` of src/basic.rs: dimensions plus
an ordered entry sequence. -/
structure MatrixInfo where
  size : Pair
  values : List Entry
  deriving DecidableEq, Repr

/-- Reading a cell of an interchange snapshot: the snapshot is a sequence of
writes applied in order, so the last write for a position wins; absent
positions read as zero.  Every consumer in the repository (both `from_info`
implementations and the `exp_map` built by `info_eq`) reads snapshots this
way. -/
def lastW : List Entry → Pair → Option ℚ
  | [], _ => none
  | e :: rest, p =>
    match lastW rest p with
    | some v => some v
    | none => if e.1 = p then some e.2 else none

/-- Cell value of a snapshot, with absent cells reading as zero. -/
def infoGetD (info : MatrixInfo) (p : Pair) : ℚ := (lastW info.values p).getD 0

/-! ## The sparse engine `MapMatrix` (src/map_matrix.rs)

`MapMatrix` couples the dimensions with a `TransposableMap`
(src/map_matrix/transposable_map.rs): an underlying store plus a boolean
transposition flag; every access swaps the coordinates of the requested key
when the flag is set.  The underlying store is abstract in the source
(`T : Map<Pair, f64>`); here the insert operation `ins` is passed to each
operation that needs it, with `hashIns` and `treeIns pairLt` as the two
concrete stores. -/

structure MMatrix where
  size : Pair
  store : List Entry
  transposed : Bool
  deriving DecidableEq, Repr

/-- Coordinate swap applied by `TransposableMap` before delegating to the
underlying store, when the transposition flag is set. -/
def physKey (t : Bool) (p : Pair) : Pair := if t then (p.2, p.1) else p

/-- Model of `MapMatrix::new`: empty store, flag cleared. -/
def mnew (size : Pair) : MMatrix := ⟨size, [], false⟩

/-- Model of `MapMatrix::get`: lookup through the transposition flag, `0.0`
when absent. -/
def mget (m : MMatrix) (p : Pair) : ℚ := (assocGet m.store (physKey m.transposed p)).getD 0

/-- Model of `MapMatrix::set`: a zero value removes the entry, any other value
is inserted or overwritten, through the transposition flag. -/
def mset (ins : List Entry → Pair → ℚ → List Entry) (m : MMatrix) (p : Pair) (v : ℚ) :
    MMatrix :=
  if v = 0 then { m with store := assocRemove m.store (physKey m.transposed p) }
  else { m with store := ins m.store (physKey m.transposed p) v }

/-- Model of `MapMatrix::transposed`: dimensions swap and the flag flips; the
store is not touched. -/
def mtransposed (m : MMatrix) : MMatrix := ⟨(m.size.2, m.size.1), m.store, !m.transposed⟩

/-- Iteration over a `TransposableMap` (its `iter`): each yielded key has its
components swapped when the flag is set. -/
def mentries (m : MMatrix) : List Entry :=
  if m.transposed then m.store.map (fun e => ((e.1.2, e.1.1), e.2)) else m.store

/-- Model of `MapMatrix::muls`: clone the store and multiply every stored
value in place via `iter_mut`. -/
def mmuls (m : MMatrix) (s : ℚ) : MMatrix :=
  { m with store := m.store.map (fun e => (e.1, e.2 * s)) }

/-- Model of `MapMatrix::add`: start from a clone of `a` (dimensions, store
and flag), then for every entry of `b` overwrite the position with
`a.get(pos) + vb`. -/
def madd (ins : List Entry → Pair → ℚ → List Entry) (a b : MMatrix) : MMatrix :=
  (mentries b).foldl (fun c e => mset ins c e.1 (mget a e.1 + e.2))
    ⟨a.size, a.store, a.transposed⟩

/-- Model of `MapMatrix::from_info`: `T::from_iter` over the snapshot's entry
sequence, i.e. the writes are inserted in order (later writes win); the flag
starts cleared. -/
def mfromInfo (ins : List Entry → Pair → ℚ → List Entry) (info : MatrixInfo) : MMatrix :=
  ⟨info.size, info.values.foldl (fun m e => ins m e.1 e.2) [], false⟩

/-- Model of `MapMatrix::to_info`: dimensions plus the iteration of the
transposable map. -/
def mtoInfo (m : MMatrix) : MatrixInfo := ⟨m.size, mentries m⟩

/-- Cross product of one column bucket of `a` against the matching row bucket
of `b`; a missing row bucket contributes nothing (the `continue`). -/
def bucketCross (av : List Entry) (obv : Option (List Entry)) : List (Entry × Entry) :=
  match obv with
  | none => []
  | some bv => av.flatMap (fun ae => bv.map (fun be => (ae, be)))

/-- The grouping phase of `MapMatrix::mul` followed by the matched
cross-products: `a`'s entries are grouped by column into one vector store and
`b`'s entries by row into another; every column bucket of `a` meeting the row
bucket of `b` with the same index yields the full cross product of the two
buckets, and unmatched buckets are skipped. -/
def mulPairs (atv : List (ℕ × List Entry) → ℕ → Entry → List (ℕ × List Entry))
    (a b : MMatrix) : List (Entry × Entry) :=
  let acolumns := (mentries a).foldl (fun g e => atv g e.1.2 e) []
  let brows := (mentries b).foldl (fun g e => atv g e.1.1 e) []
  acolumns.flatMap (fun ib => bucketCross ib.2 (assocGet brows ib.1))

/-- Model of `MapMatrix::mul`: the result starts as
`MapMatrix::new((a.size.0, b.size.1))`; each matched entry pair first runs
`assert_eq!(a.size.1, b.size.0)` (a panic, hence `none`, on mismatch) and
then accumulates `c.set(pos, c.get(pos) + vb * va)` at
`pos = (apos.0, bpos.1)`. -/
def mmul (ins : List Entry → Pair → ℚ → List Entry)
    (atv : List (ℕ × List Entry) → ℕ → Entry → List (ℕ × List Entry))
    (a b : MMatrix) : Option MMatrix :=
  (mulPairs atv a b).foldlM (fun c pr =>
    if a.size.2 = b.size.1 then
      some (mset ins c (pr.1.1.1, pr.2.1.2) (mget c (pr.1.1.1, pr.2.1.2) + pr.2.2 * pr.1.2))
    else none) (mnew (a.size.1, b.size.2))

/-! ## The dense engine `TableMatrix` (src/table_matrix.rs)

The backing storage is `Vec<Vec<f64>>`, embedded as `List (List ℚ)`; an
out-of-bounds index panics in Rust and gives `none` here. -/

structure TableMatrix where
  size : Pair
  data : List (List ℚ)
  deriving DecidableEq, Repr

/-- Model of `TableMatrix::new`: a fully materialized zero-filled
rows-by-columns table. -/
def tNew (size : Pair) : TableMatrix :=
  ⟨size, List.replicate size.1 (List.replicate size.2 (0 : ℚ))⟩

/-- Read `data[p.0][p.1]`; `none` models the Rust index panic. -/
def lookup2 (d : List (List ℚ)) (p : Pair) : Option ℚ :=
  (d.get? p.1).bind (fun row => row.get? p.2)

/-- Write `data[p.0][p.1] = v`; `none` models the Rust index panic. -/
def update2 (d : List (List ℚ)) (p : Pair) (v : ℚ) : Option (List (List ℚ)) :=
  (d.get? p.1).bind (fun row =>
    if p.2 < row.length then some (d.set p.1 (row.set p.2 v)) else none)

/-- Cell positions `(i, j)` for `i` in `0..size.0`, `j` in `0..size.1`, in the
row-major order of the source's nested loops. -/
def cellList (size : Pair) : List Pair :=
  (List.range size.1).flatMap (fun i => (List.range size.2).map (fun j => (i, j)))

/-- Model of `TableMatrix::from_info`: start from the zero table and perform
`m.data[r][c] = value` for each snapshot entry in order. -/
def tFromInfo (info : MatrixInfo) : Option TableMatrix :=
  (info.values.foldlM (fun d e => update2 d e.1 e.2) (tNew info.size).data).map
    (fun d => ⟨info.size, d⟩)

/-- Model of `TableMatrix::to_info`: read every cell in row-major order. -/
def tToInfo (m : TableMatrix) : Option MatrixInfo :=
  ((cellList m.size).mapM (fun p => (lookup2 m.data p).map (fun v => (p, v)))).map
    (fun vs => ⟨m.size, vs⟩)

/-- Model of `TableMatrix::transposed`: a fresh zero table of swapped
dimensions receives `t.data[j][i] = self.data[i][j]` for every cell. -/
def tTransposed (m : TableMatrix) : Option TableMatrix :=
  ((cellList m.size).foldlM (fun d p =>
      (lookup2 m.data p).bind (fun v => update2 d (p.2, p.1) v))
    (tNew (m.size.2, m.size.1)).data).map (fun d => ⟨(m.size.2, m.size.1), d⟩)

/-- Model of `TableMatrix::add`: `assert_eq!(a.size, b.size)` then an
element-wise sweep `res.data[i][j] = a.data[i][j] + b.data[i][j]`. -/
def tAdd (a b : TableMatrix) : Option TableMatrix :=
  if a.size = b.size then
    ((cellList a.size).foldlM (fun d p =>
        (lookup2 a.data p).bind (fun va =>
          (lookup2 b.data p).bind (fun vb => update2 d p (va + vb))))
      (tNew a.size).data).map (fun d => ⟨a.size, d⟩)
  else none

/-- Index triples `(i, k, j)` of the dense multiplication loops, `i` outer,
`k` middle, `j` inner, each ranging as in the source (`i < n.0`, `k < n.1`,
`j < n.1`). -/
def tripleList (n : Pair) : List (ℕ × ℕ × ℕ) :=
  (List.range n.1).flatMap (fun i =>
    (List.range n.2).flatMap (fun k =>
      (List.range n.2).map (fun j => (i, k, j))))

/-- Model of `TableMatrix::mul`: `assert_eq!(a.size, b.size)`, then the triple
loop `res.data[i][j] += a.data[i][k] * b.data[k][j]` over a zero-initialized
result of dimensions `a.size`. -/
def tMul (a b : TableMatrix) : Option TableMatrix :=
  if a.size = b.size then
    ((tripleList a.size).foldlM (fun d t =>
        (lookup2 a.data (t.1, t.2.1)).bind (fun aik =>
          (lookup2 b.data (t.2.1, t.2.2)).bind (fun bkj =>
            (lookup2 d (t.1, t.2.2)).bind (fun cur =>
              update2 d (t.1, t.2.2) (cur + aik * bkj)))))
      (tNew a.size).data).map (fun d => ⟨a.size, d⟩)
  else none

/-! ## The baseline engine `SimpleMatrix` (src/base_matrix.rs) -/

structure SimpleMatrix where
  size : Pair
  values : List Entry
  deriving DecidableEq, Repr

/-- Model of `SimpleMatrix::get`. -/
def sget (m : SimpleMatrix) (p : Pair) : ℚ := (assocGet m.values p).getD 0

/-- Model of `SimpleMatrix::set`: zero removes, otherwise `HashMap::insert`. -/
def sset (m : SimpleMatrix) (p : Pair) (v : ℚ) : SimpleMatrix :=
  if v = 0 then { m with values := assocRemove m.values p }
  else { m with values := hashIns m.values p v }

/-- Model of `SimpleMatrix::add`: a fresh empty result of `a`'s size receives
`c.set(pos, b.get(pos) + va)` for each entry of `a` only. -/
def sadd (a b : SimpleMatrix) : SimpleMatrix :=
  a.values.foldl (fun c e => sset c e.1 (sget b e.1 + e.2)) ⟨a.size, []⟩

/-! ## Comparison helpers of src/lib.rs and src/main.rs -/

/-- Tolerance `EPSILON = 1e-8` of src/lib.rs and src/main.rs. -/
def EPS : ℚ := 1 / 100000000

/-- The `exp_map` built by `info_eq` and `diff`: the expected snapshot's
entries inserted into a `HashMap` in order (last write per position wins). -/
def expMapFold (l : List Entry) : List Entry := l.foldl (fun m e => hashIns m e.1 e.2) []

/-- Model of `info_eq` (src/lib.rs): sizes must be equal, and every entry of
`current` must find its position in the expected map with values within
`EPSILON`; entries of `expected` are not themselves traversed. -/
def info_eq (expected current : MatrixInfo) : Bool :=
  if expected.size = current.size then
    current.values.all (fun e =>
      match assocGet (expMapFold expected.values) e.1 with
      | some v => decide (|v - e.2| ≤ EPS)
      | none => false)
  else false

/-- Model of the cross-check helper `mul<M>` (src/lib.rs and src/main.rs) for
the sparse engines: both reconstructed matrices are transposed and the
product `M::mul(&b, &a)` is snapshotted. -/
def libMul (ins : List Entry → Pair → ℚ → List Entry)
    (atv : List (ℕ × List Entry) → ℕ → Entry → List (ℕ × List Entry))
    (ainfo binfo : MatrixInfo) : Option MatrixInfo :=
  let a := mtransposed (mfromInfo ins ainfo)
  let b := mtransposed (mfromInfo ins binfo)
  (mmul ins atv b a).map mtoInfo

/-! ## Well-formedness invariants -/

/-- Hash store invariant: distinct keys (every `HashMap` satisfies this). -/
def HInv {K V : Type} (m : List (K × V)) : Prop := KeysNodup m

/-- Tree store invariant: entries strictly ascending in key order (every
`BTreeMap` iterates this way). -/
def TInv {K V : Type} (lt : K → K → Bool) (m : List (K × V)) : Prop :=
  m.Pairwise (fun e f => lt e.1 f.1 = true)

/-- A sparse matrix over the hash store is well formed when its physical store
has distinct keys and, as the engine's zero-suppression intends, holds no zero
values. -/
def MWfH (m : MMatrix) : Prop := KeysNodup m.store ∧ ∀ e ∈ m.store, e.2 ≠ 0

/-- A sparse matrix over the tree store is well formed when its physical store
is strictly sorted by `pairLt` and holds no zero values. -/
def MWfT (m : MMatrix) : Prop := TInv pairLt m.store ∧ ∀ e ∈ m.store, e.2 ≠ 0

/-- A dense matrix is well formed when its table really has `size.0` rows of
`size.1` cells each. -/
def TWf (m : TableMatrix) : Prop :=
  m.data.length = m.size.1 ∧ ∀ row ∈ m.data, row.length = m.size.2

instance (m : MMatrix) : Decidable (MWfH m) := by
  unfold MWfH KeysNodup
  infer_instance

instance (m : MMatrix) : Decidable (MWfT m) := by
  unfold MWfT TInv
  infer_instance

instance (m : TableMatrix) : Decidable (TWf m) := by
  unfold TWf
  infer_instance

/-! ## Association list lemmas -/

theorem assocGet_eq_none_iff {K V : Type} [DecidableEq K] (m : List (K × V)) (k : K) :
    assocGet m k = none ↔ k ∉ m.map Prod.fst := by
  induction m with
  | nil => simp [assocGet]
  | cons e rest ih =>
    by_cases h : e.1 = k <;> simp [assocGet, h, ih, Ne.symm]

theorem assocGet_isSome_iff {K V : Type} [DecidableEq K] (m : List (K × V)) (k : K) :
    (assocGet m k).isSome = true ↔ k ∈ m.map Prod.fst := by
  rcases h : assocGet m k with _ | v
  · simpa [assocGet_eq_none_iff m k] using (assocGet_eq_none_iff m k).1 h
  · simp only [Option.isSome_some, true_iff]
    by_contra hmem
    rw [← assocGet_eq_none_iff m k] at hmem
    rw [h] at hmem
    exact Option.noConfusion hmem

theorem assocGet_remove_ne {K V : Type} [DecidableEq K] (m : List (K × V)) (k k' : K)
    (h : k' ≠ k) : assocGet (assocRemove m k) k' = assocGet m k' := by
  induction m with
  | nil => rfl
  | cons e rest ih =>
    by_cases he : e.1 = k
    · have : assocRemove (e :: rest) k = rest := by
        simp [assocRemove, List.eraseP_cons, he]
      rw [this, assocGet]
      have : ¬ e.1 = k' := by rw [he]; exact fun hk => h hk.symm
      simp [this]
    · have : assocRemove (e :: rest) k = e :: assocRemove rest k := by
        simp [assocRemove, List.eraseP_cons, he]
      rw [this, assocGet, assocGet, ih]

theorem not_mem_keys_remove {K V : Type} [DecidableEq K] (m : List (K × V)) (k : K)
    (h : KeysNodup m) : k ∉ (assocRemove m k).map Prod.fst := by
  induction m with
  | nil => simp [assocRemove]
  | cons e rest ih =>
    have hnd : KeysNodup rest := (List.nodup_cons.1 h).2
    have hk : e.1 ∉ rest.map Prod.fst := (List.nodup_cons.1 h).1
    by_cases he : e.1 = k
    · have : assocRemove (e :: rest) k = rest := by
        simp [assocRemove, List.eraseP_cons, he]
      rw [this]
      rw [← he]
      exact hk
    · have : assocRemove (e :: rest) k = e :: assocRemove rest k := by
        simp [assocRemove, List.eraseP_cons, he]
      rw [this]
      intro hmem
      rcases (List.mem_map.1 hmem) with ⟨f, hf, hfk⟩
      rcases List.mem_cons.1 hf with hfe | hfr
      · exact he (by rw [hfe] at hfk; exact hfk)
      · exact ih hnd (List.mem_map.2 ⟨f, hfr, hfk⟩)

theorem keysNodup_remove {K V : Type} [DecidableEq K] (m : List (K × V)) (k : K)
    (h : KeysNodup m) : KeysNodup (assocRemove m k) := by
  have hsub : List.Sublist ((assocRemove m k).map Prod.fst) (m.map Prod.fst) :=
    List.Sublist.map Prod.fst (List.eraseP_sublist m)
  exact List.Nodup.sublist hsub h

theorem assocGet_remove {K V : Type} [DecidableEq K] (m : List (K × V)) (k k' : K)
    (h : KeysNodup m) :
    assocGet (assocRemove m k) k' = if k' = k then none else assocGet m k' := by
  by_cases hk : k' = k
  · subst hk
    rw [if_pos rfl, assocGet_eq_none_iff]
    exact not_mem_keys_remove m k' h
  · rw [if_neg hk, assocGet_remove_ne m k k' hk]

theorem mem_of_mem_remove {K V : Type} [DecidableEq K] {m : List (K × V)} {k : K}
    {e : K × V} (h : e ∈ assocRemove m k) : e ∈ m :=
  List.mem_of_mem_eraseP h

theorem mem_iff_assocGet {K V : Type} [DecidableEq K] {m : List (K × V)} (h : KeysNodup m)
    (k : K) (v : V) : (k, v) ∈ m ↔ assocGet m k = some v := by
  induction m with
  | nil => simp [assocGet]
  | cons e rest ih =>
    have hnd : KeysNodup rest := (List.nodup_cons.1 h).2
    have hk : e.1 ∉ rest.map Prod.fst := (List.nodup_cons.1 h).1
    by_cases he : e.1 = k
    · simp only [assocGet, if_pos he, List.mem_cons]
      constructor
      · rintro (rfl | hmem)
        · rfl
        · exact absurd (List.mem_map.2 ⟨(k, v), hmem, rfl⟩) (he ▸ hk)
      · rintro hv
        left
        have h2 : e.2 = v := by injection hv
        have he' : e = (e.1, e.2) := rfl
        rw [he', he, h2]
    · simp only [assocGet, if_neg he, List.mem_cons, ih hnd]
      constructor
      · rintro (hv | hmem)
        · exact absurd (congrArg Prod.fst hv).symm he
        · exact hmem
      · exact fun hmem => Or.inr hmem

theorem assocGetD_eq_sum {K : Type} [DecidableEq K] {m : List (K × ℚ)} (h : KeysNodup m)
    (k : K) :
    (assocGet m k).getD 0 = (m.map (fun e => if e.1 = k then e.2 else 0)).sum := by
  induction m with
  | nil => simp [assocGet]
  | cons e rest ih =>
    have hnd : KeysNodup rest := (List.nodup_cons.1 h).2
    have hk : e.1 ∉ rest.map Prod.fst := (List.nodup_cons.1 h).1
    by_cases he : e.1 = k
    · have hz : ∀ f ∈ rest, (if f.1 = k then f.2 else 0) = 0 := by
        intro f hf
        have : f.1 ≠ k := fun hfk => (he ▸ hk) (List.mem_map.2 ⟨f, hf, hfk ▸ rfl⟩)
        simp [this]
      have : (rest.map (fun e => if e.1 = k then e.2 else 0)).sum = 0 := by
        rw [List.map_congr_left (fun f hf => hz f hf)]
        simp
      simp [assocGet, he, this]
    · simp [assocGet, he, ih hnd]

/-! ## Hash store laws -/

theorem hash_get_ins {K V : Type} [DecidableEq K] (m : List (K × V)) (k : K) (v : V)
    (k' : K) : assocGet (hashIns m k v) k' = if k' = k then some v else assocGet m k' := by
  by_cases hk : k' = k
  · simp [hashIns, assocGet, hk]
  · have : ¬ k = k' := fun h => hk h.symm
    simp only [hashIns, assocGet, if_neg this, if_neg hk]
    exact assocGet_remove_ne m k k' hk

theorem hash_inv_ins {K V : Type} [DecidableEq K] (m : List (K × V)) (k : K) (v : V)
    (h : KeysNodup m) : KeysNodup (hashIns m k v) := by
  unfold hashIns KeysNodup
  rw [List.map_cons, List.nodup_cons]
  exact ⟨not_mem_keys_remove m k h, keysNodup_remove m k h⟩

theorem hash_mem_ins {K V : Type} [DecidableEq K] {m : List (K × V)} {k : K} {v : V}
    {e : K × V} (h : e ∈ hashIns m k v) : e = (k, v) ∨ e ∈ m := by
  rcases List.mem_cons.1 h with h1 | h2
  · exact Or.inl h1
  · exact Or.inr (mem_of_mem_remove h2)

/-! ## Tree store laws -/

/-- A strict total order given as a boolean comparison, the shape of the `Ord`
instances `BTreeMap` relies on. -/
structure StrictOrd {K : Type} (lt : K → K → Bool) : Prop where
  irrefl : ∀ a, lt a a = false
  htrans : ∀ {a b c}, lt a b = true → lt b c = true → lt a c = true
  total : ∀ a b, a = b ∨ lt a b = true ∨ lt b a = true

theorem pairLt_strictOrd : StrictOrd pairLt := by
  constructor
  · intro a
    simp [pairLt]
  · intro a b c hab hbc
    simp only [pairLt, Bool.or_eq_true, Bool.and_eq_true, decide_eq_true_eq] at *
    omega
  · intro a b
    rcases a with ⟨a1, a2⟩
    rcases b with ⟨b1, b2⟩
    simp only [pairLt, Bool.or_eq_true, Bool.and_eq_true, decide_eq_true_eq, Prod.mk.injEq]
    omega

theorem natLt_strictOrd : StrictOrd natLt := by
  constructor
  · intro a
    simp [natLt]
  · intro a b c hab hbc
    simp only [natLt, decide_eq_true_eq] at *
    omega
  · intro a b
    simp only [natLt, decide_eq_true_eq]
    omega

theorem strictOrd_ne {K : Type} {lt : K → K → Bool} (S : StrictOrd lt) {a b : K}
    (h : lt a b = true) : a ≠ b := by
  intro hab
  subst hab
  rw [S.irrefl a] at h
  exact Bool.false_ne_true h

theorem tinv_keysNodup {K V : Type} {lt : K → K → Bool} (S : StrictOrd lt)
    {m : List (K × V)} (h : TInv lt m) : KeysNodup m := by
  unfold KeysNodup List.Nodup
  rw [List.pairwise_map]
  exact h.imp (fun hlt => strictOrd_ne S hlt)

theorem tinv_remove {K V : Type} [DecidableEq K] {lt : K → K → Bool} {m : List (K × V)}
    (h : TInv lt m) (k : K) : TInv lt (assocRemove m k) :=
  List.Pairwise.sublist (List.eraseP_sublist m) h

theorem tree_mem_ins {K V : Type} [DecidableEq K] (lt : K → K → Bool) {m : List (K × V)}
    {k : K} {v : V} {e : K × V} (h : e ∈ treeIns lt m k v) : e = (k, v) ∨ e ∈ m := by
  induction m with
  | nil => simpa [treeIns] using h
  | cons f rest ih =>
    simp only [treeIns] at h
    by_cases h1 : f.1 = k
    · rw [if_pos h1] at h
      rcases List.mem_cons.1 h with h2 | h2
      · exact Or.inl h2
      · exact Or.inr (List.mem_cons.2 (Or.inr h2))
    · rw [if_neg h1] at h
      by_cases h2 : lt k f.1 = true
      · rw [if_pos h2] at h
        rcases List.mem_cons.1 h with h3 | h3
        · exact Or.inl h3
        · exact Or.inr h3
      · rw [if_neg h2] at h
        rcases List.mem_cons.1 h with h3 | h3
        · exact Or.inr (List.mem_cons.2 (Or.inl h3))
        · rcases ih h3 with h4 | h4
          · exact Or.inl h4
          · exact Or.inr (List.mem_cons.2 (Or.inr h4))

theorem tree_inv_ins {K V : Type} [DecidableEq K] {lt : K → K → Bool} (S : StrictOrd lt)
    {m : List (K × V)} (h : TInv lt m) (k : K) (v : V) : TInv lt (treeIns lt m k v) := by
  induction m with
  | nil => simp [treeIns, TInv]
  | cons f rest ih =>
    have hrest : TInv lt rest := (List.pairwise_cons.1 h).2
    have hf : ∀ g ∈ rest, lt f.1 g.1 = true := (List.pairwise_cons.1 h).1
    simp only [treeIns]
    by_cases h1 : f.1 = k
    · rw [if_pos h1]
      refine List.pairwise_cons.2 ⟨fun g hg => ?_, hrest⟩
      rw [← h1]
      exact hf g hg
    · rw [if_neg h1]
      by_cases h2 : lt k f.1 = true
      · rw [if_pos h2]
        refine List.pairwise_cons.2 ⟨fun g hg => ?_, h⟩
        rcases List.mem_cons.1 hg with h3 | h3
        · rw [h3]
          exact h2
        · exact S.htrans h2 (hf g h3)
      · rw [if_neg h2]
        refine List.pairwise_cons.2 ⟨fun g hg => ?_, ih hrest⟩
        rcases tree_mem_ins lt hg with h3 | h3
        · rw [h3]
          rcases S.total f.1 k with h4 | h4 | h4
          · exact absurd h4 h1
          · exact h4
          · exact absurd h4 h2
        · exact hf g h3

theorem tree_get_ins {K V : Type} [DecidableEq K] (lt : K → K → Bool) (m : List (K × V))
    (k : K) (v : V) (k' : K) :
    assocGet (treeIns lt m k v) k' = if k' = k then some v else assocGet m k' := by
  induction m with
  | nil =>
    by_cases hk : k' = k
    · simp [treeIns, assocGet, hk]
    · have : ¬ k = k' := fun h => hk h.symm
      simp [treeIns, assocGet, hk, this]
  | cons f rest ih =>
    simp only [treeIns]
    by_cases h1 : f.1 = k
    · rw [if_pos h1]
      by_cases hk : k' = k
      · simp [assocGet, hk]
      · have hkk : ¬ k = k' := fun h => hk h.symm
        have hfk : ¬ f.1 = k' := by rw [h1]; exact hkk
        simp [assocGet, hkk, hk, hfk]
    · rw [if_neg h1]
      by_cases h2 : lt k f.1 = true
      · rw [if_pos h2]
        by_cases hk : k' = k
        · simp [assocGet, hk]
        · have hkk : ¬ k = k' := fun h => hk h.symm
          simp [assocGet, hkk, hk]
      · rw [if_neg h2]
        by_cases hf : f.1 = k'
        · have hk : ¬ k' = k := by rw [← hf]; exact fun h => h1 h
          simp [assocGet, hf, hk]
        · simp [assocGet, hf, ih]

theorem tree_mem_atv {K A : Type} [DecidableEq K] (lt : K → K → Bool)
    {m : List (K × List A)} {k : K} {v : A} {e : K × List A}
    (h : e ∈ treeAtv lt m k v) : e.1 = k ∨ e ∈ m := by
  induction m with
  | nil =>
    simp only [treeAtv, List.mem_singleton] at h
    exact Or.inl (by rw [h])
  | cons f rest ih =>
    simp only [treeAtv] at h
    by_cases h1 : f.1 = k
    · rw [if_pos h1] at h
      rcases List.mem_cons.1 h with h2 | h2
      · exact Or.inl (by rw [h2]; exact h1)
      · exact Or.inr (List.mem_cons.2 (Or.inr h2))
    · rw [if_neg h1] at h
      by_cases h2 : lt k f.1 = true
      · rw [if_pos h2] at h
        rcases List.mem_cons.1 h with h3 | h3
        · exact Or.inl (by rw [h3])
        · exact Or.inr h3
      · rw [if_neg h2] at h
        rcases List.mem_cons.1 h with h3 | h3
        · exact Or.inr (List.mem_cons.2 (Or.inl h3))
        · rcases ih h3 with h4 | h4
          · exact Or.inl h4
          · exact Or.inr (List.mem_cons.2 (Or.inr h4))

theorem tree_inv_atv {K A : Type} [DecidableEq K] {lt : K → K → Bool} (S : StrictOrd lt)
    {m : List (K × List A)} (h : TInv lt m) (k : K) (v : A) :
    TInv lt (treeAtv lt m k v) := by
  induction m with
  | nil => simp [treeAtv, TInv]
  | cons f rest ih =>
    have hrest : TInv lt rest := (List.pairwise_cons.1 h).2
    have hf : ∀ g ∈ rest, lt f.1 g.1 = true := (List.pairwise_cons.1 h).1
    simp only [treeAtv]
    by_cases h1 : f.1 = k
    · rw [if_pos h1]
      exact List.pairwise_cons.2 ⟨fun g hg => hf g hg, hrest⟩
    · rw [if_neg h1]
      by_cases h2 : lt k f.1 = true
      · rw [if_pos h2]
        refine List.pairwise_cons.2 ⟨fun g hg => ?_, h⟩
        rcases List.mem_cons.1 hg with h3 | h3
        · rw [h3]
          exact h2
        · exact S.htrans h2 (hf g h3)
      · rw [if_neg h2]
        refine List.pairwise_cons.2 ⟨fun g hg => ?_, ih hrest⟩
        rcases tree_mem_atv lt hg with h3 | h3
        · rw [h3]
          rcases S.total f.1 k with h4 | h4 | h4
          · exact absurd h4 h1
          · exact h4
          · exact absurd h4 h2
        · exact hf g h3

theorem tree_get_atv {K A : Type} [DecidableEq K] {lt : K → K → Bool} (S : StrictOrd lt)
    {m : List (K × List A)} (hm : TInv lt m) (k : K) (v : A) (i : K) :
    assocGet (treeAtv lt m k v) i =
      if i = k then some (((assocGet m k).getD []) ++ [v]) else assocGet m i := by
  induction m with
  | nil =>
    by_cases hk : i = k
    · simp [treeAtv, assocGet, hk]
    · have : ¬ k = i := fun h => hk h.symm
      simp [treeAtv, assocGet, hk, this]
  | cons f rest ih =>
    have hrest : TInv lt rest := (List.pairwise_cons.1 hm).2
    have hf : ∀ g ∈ rest, lt f.1 g.1 = true := (List.pairwise_cons.1 hm).1
    simp only [treeAtv]
    by_cases h1 : f.1 = k
    · rw [if_pos h1]
      by_cases hk : i = k
      · have hfi : f.1 = i := by rw [h1, hk]
        simp [assocGet, hfi, h1, hk]
      · have hfk : ¬ f.1 = i := by rw [h1]; exact fun h => hk h.symm
        simp [assocGet, hfk, hk]
    · rw [if_neg h1]
      by_cases h2 : lt k f.1 = true
      · rw [if_pos h2]
        have hkn : assocGet rest k = none := by
          rw [assocGet_eq_none_iff]
          intro hmem
          rcases List.mem_map.1 hmem with ⟨g, hg, hgk⟩
          exact strictOrd_ne S (S.htrans h2 (hf g hg)) hgk.symm
        by_cases hk : i = k
        · have hfk : ¬ f.1 = k := h1
          simp [assocGet, hk, hfk, hkn]
        · have hkk : ¬ k = i := fun h => hk h.symm
          simp [assocGet, hkk, hk]
      · rw [if_neg h2]
        by_cases hfi : f.1 = i
        · have hk : ¬ i = k := by rw [← hfi]; exact fun h => h1 h
          simp [assocGet, hfi, hk]
        · by_cases hk : i = k
          · subst hk
            simp [assocGet, hfi, ih hrest]
          · simp [assocGet, hfi, hk, ih hrest]

/-! ## Law bundles for the two pluggable stores -/

/-- The facts about a store's insert operation that the generic engine proofs
rely on: an invariant preserved by the operations, distinctness of keys, and
the read-after-write law. -/
structure InsOk (ins : List Entry → Pair → ℚ → List Entry) (Inv : List Entry → Prop) :
    Prop where
  inv_nil : Inv []
  inv_ins : ∀ m k v, Inv m → Inv (ins m k v)
  inv_rm : ∀ m k, Inv m → Inv (assocRemove m k)
  nodup : ∀ m, Inv m → KeysNodup m
  get_ins : ∀ m k v k', assocGet (ins m k v) k' = if k' = k then some v else assocGet m k'
  mem_ins : ∀ m k v e, e ∈ ins m k v → e = (k, v) ∨ e ∈ m

/-- The corresponding facts about a vector store's `add_to_vec`. -/
structure AtvOk (atv : List (ℕ × List Entry) → ℕ → Entry → List (ℕ × List Entry))
    (Inv : List (ℕ × List Entry) → Prop) : Prop where
  inv_nil : Inv []
  inv_atv : ∀ m k v, Inv m → Inv (atv m k v)
  nodup : ∀ m, Inv m → KeysNodup m
  get_atv : ∀ m k v i, Inv m → assocGet (atv m k v) i =
    if i = k then some (((assocGet m k).getD []) ++ [v]) else assocGet m i

theorem hashInsOk : InsOk hashIns (fun m => KeysNodup m) := by
  constructor
  · simp [KeysNodup]
  · exact fun m k v h => hash_inv_ins m k v h
  · exact fun m k h => keysNodup_remove m k h
  · exact fun m h => h
  · exact fun m k v k' => hash_get_ins m k v k'
  · exact fun m k v e h => hash_mem_ins h

theorem treeInsOk : InsOk (treeIns pairLt) (TInv pairLt) := by
  constructor
  · simp [TInv]
  · exact fun m k v h => tree_inv_ins pairLt_strictOrd h k v
  · exact fun m k h => tinv_remove h k
  · exact fun m h => tinv_keysNodup pairLt_strictOrd h
  · exact fun m k v k' => tree_get_ins pairLt m k v k'
  · exact fun m k v e h => tree_mem_ins pairLt h

theorem hashAtvOk : AtvOk hashAtv (fun m => KeysNodup m) := by
  constructor
  · simp [KeysNodup]
  · intro m k v h
    unfold hashAtv KeysNodup
    rw [List.map_cons, List.nodup_cons]
    exact ⟨not_mem_keys_remove m k h, keysNodup_remove m k h⟩
  · exact fun m h => h
  · intro m k v i _
    by_cases hk : i = k
    · simp [hashAtv, assocGet, hk]
    · have : ¬ k = i := fun h => hk h.symm
      simp only [hashAtv, assocGet, if_neg this, if_neg hk]
      exact assocGet_remove_ne m k i hk

theorem treeAtvOk : AtvOk (treeAtv natLt) (TInv natLt) := by
  constructor
  · simp [TInv]
  · exact fun m k v h => tree_inv_atv natLt_strictOrd h k v
  · exact fun m h => tinv_keysNodup natLt_strictOrd h
  · exact fun m k v i h => tree_get_atv natLt_strictOrd h k v i

/-! ## Fold characterizations -/

theorem foldl_preserve {α β : Type} (Inv : β → Prop) (f : β → α → β)
    (hf : ∀ b a, Inv b → Inv (f b a)) (l : List α) (b0 : β) (h0 : Inv b0) :
    Inv (l.foldl f b0) := by
  induction l generalizing b0 with
  | nil => exact h0
  | cons a rest ih => exact ih (f b0 a) (hf b0 a h0)

theorem assocGet_foldl_ins (ins : List Entry → Pair → ℚ → List Entry)
    (hget : ∀ (m : List Entry) k v k',
      assocGet (ins m k v) k' = if k' = k then some v else assocGet m k')
    (l : List Entry) (m0 : List Entry) (q : Pair) :
    assocGet (l.foldl (fun m e => ins m e.1 e.2) m0) q =
      match lastW l q with
      | some v => some v
      | none => assocGet m0 q := by
  induction l generalizing m0 with
  | nil => simp [lastW]
  | cons e rest ih =>
    rw [List.foldl_cons, ih, lastW]
    rcases h : lastW rest q with _ | v
    · rw [hget]
      by_cases hq : q = e.1
      · simp [hq]
      · have : ¬ e.1 = q := fun h => hq h.symm
        simp [hq, this]
    · rfl

theorem lastW_eq_none_iff (l : List Entry) (q : Pair) :
    lastW l q = none ↔ q ∉ l.map Prod.fst := by
  induction l with
  | nil => simp [lastW]
  | cons e rest ih =>
    rw [lastW]
    rcases h : lastW rest q with _ | v
    · have hq2 : q ∉ List.map Prod.fst rest := ih.1 h
      by_cases hq : e.1 = q
      · simp only [if_pos hq, List.map_cons, List.mem_cons]
        constructor
        · intro hc
          exact Option.noConfusion hc
        · intro hc
          exact absurd (Or.inl hq.symm) hc
      · simp only [if_neg hq, List.map_cons, List.mem_cons]
        constructor
        · intro _ hc
          rcases hc with h1 | h2
          · exact hq h1.symm
          · exact hq2 h2
        · intro _
          trivial
    · have hq2 : q ∈ List.map Prod.fst rest := by
        by_contra hc
        rw [← ih] at hc
        rw [h] at hc
        exact Option.noConfusion hc
      simp only [List.map_cons, List.mem_cons]
      constructor
      · intro hc
        exact Option.noConfusion hc
      · intro hc
        exact absurd (Or.inr hq2) hc

theorem lastW_of_nodup {l : List Entry} (h : KeysNodup l) (q : Pair) :
    lastW l q = assocGet l q := by
  induction l with
  | nil => rfl
  | cons e rest ih =>
    have hnd : KeysNodup rest := (List.nodup_cons.1 h).2
    have hk : e.1 ∉ rest.map Prod.fst := (List.nodup_cons.1 h).1
    rw [lastW, ih hnd, assocGet]
    by_cases he : e.1 = q
    · have : assocGet rest q = none := by
        rw [assocGet_eq_none_iff]
        rw [← he]
        exact hk
      simp [this, he]
    · rcases hr : assocGet rest q with _ | v
      · simp [he]
      · simp [he]

/-! ## MapMatrix engine lemmas -/

theorem physKey_physKey (t : Bool) (p : Pair) : physKey t (physKey t p) = p := by
  cases t <;> simp [physKey]

theorem physKey_inj {t : Bool} {p q : Pair} (h : physKey t p = physKey t q) : p = q := by
  cases t
  · simpa [physKey] using h
  · simp only [physKey, if_pos] at h
    rcases p with ⟨p1, p2⟩
    rcases q with ⟨q1, q2⟩
    simp only [Prod.mk.injEq] at h ⊢
    exact ⟨h.2, h.1⟩

theorem mset_size (ins : List Entry → Pair → ℚ → List Entry) (m : MMatrix) (p : Pair)
    (v : ℚ) : (mset ins m p v).size = m.size := by
  unfold mset
  by_cases h : v = 0 <;> simp [h]

theorem mset_flag (ins : List Entry → Pair → ℚ → List Entry) (m : MMatrix) (p : Pair)
    (v : ℚ) : (mset ins m p v).transposed = m.transposed := by
  unfold mset
  by_cases h : v = 0 <;> simp [h]

theorem mset_inv {ins : List Entry → Pair → ℚ → List Entry} {Inv : List Entry → Prop}
    (L : InsOk ins Inv) {m : MMatrix} (h : Inv m.store) (p : Pair) (v : ℚ) :
    Inv (mset ins m p v).store := by
  unfold mset
  by_cases hv : v = 0
  · simpa [hv] using L.inv_rm m.store (physKey m.transposed p) h
  · simpa [hv] using L.inv_ins m.store (physKey m.transposed p) v h

theorem mset_noZero {ins : List Entry → Pair → ℚ → List Entry} {Inv : List Entry → Prop}
    (L : InsOk ins Inv) {m : MMatrix} (h : ∀ e ∈ m.store, e.2 ≠ 0) (p : Pair) (v : ℚ) :
    ∀ e ∈ (mset ins m p v).store, e.2 ≠ 0 := by
  unfold mset
  by_cases hv : v = 0
  · simp only [if_pos hv]
    intro e he
    exact h e (mem_of_mem_remove he)
  · simp only [if_neg hv]
    intro e he
    rcases L.mem_ins m.store (physKey m.transposed p) v e he with h1 | h1
    · rw [h1]
      exact hv
    · exact h e h1

theorem mget_mset {ins : List Entry → Pair → ℚ → List Entry} {Inv : List Entry → Prop}
    (L : InsOk ins Inv) {m : MMatrix} (h : Inv m.store) (p : Pair) (v : ℚ) (q : Pair) :
    mget (mset ins m p v) q = if q = p then v else mget m q := by
  unfold mget mset
  by_cases hv : v = 0
  · simp only [if_pos hv]
    rw [assocGet_remove m.store (physKey m.transposed p) (physKey m.transposed q) (L.nodup _ h)]
    by_cases hq : q = p
    · simp [hq, hv]
    · have hc : physKey m.transposed q ≠ physKey m.transposed p := fun hc => hq (physKey_inj hc)
      simp [hq, hc]
  · simp only [if_neg hv]
    rw [L.get_ins]
    by_cases hq : q = p
    · simp [hq]
    · have hc : physKey m.transposed q ≠ physKey m.transposed p := fun hc => hq (physKey_inj hc)
      simp [hq, hc]

theorem assocGet_map_swap (l : List Entry) (p : Pair) :
    assocGet (l.map (fun e => ((e.1.2, e.1.1), e.2))) p = assocGet l (p.2, p.1) := by
  induction l with
  | nil => rfl
  | cons e rest ih =>
    simp only [List.map_cons, assocGet, ih]
    by_cases h : (e.1.2, e.1.1) = p
    · have h2 : e.1 = (p.2, p.1) := by rw [← h]
      simp [h, h2]
    · have h2 : ¬ e.1 = (p.2, p.1) := by
        intro hc
        apply h
        rw [hc]
      simp [h, h2]

theorem assocGet_mentries (m : MMatrix) (p : Pair) :
    assocGet (mentries m) p = assocGet m.store (physKey m.transposed p) := by
  unfold mentries physKey
  rcases hb : m.transposed
  · simp
  · simp [assocGet_map_swap]

theorem mget_eq_entries (m : MMatrix) (p : Pair) :
    mget m p = (assocGet (mentries m) p).getD 0 := by
  rw [mget, assocGet_mentries]

theorem keysNodup_mentries {m : MMatrix} (h : KeysNodup m.store) :
    KeysNodup (mentries m) := by
  unfold mentries
  rcases m.transposed
  · simpa using h
  · simp only [if_pos]
    unfold KeysNodup at *
    rw [List.map_map]
    have : (Prod.fst ∘ fun e : Entry => ((e.1.2, e.1.1), e.2))
        = (fun q : Pair => (q.2, q.1)) ∘ Prod.fst := rfl
    rw [this, ← List.map_map]
    refine List.Nodup.map ?_ h
    intro x y hxy
    rcases x with ⟨x1, x2⟩
    rcases y with ⟨y1, y2⟩
    simp only [Prod.mk.injEq] at hxy ⊢
    exact ⟨hxy.2, hxy.1⟩

theorem mget_sum_entries {m : MMatrix} (h : KeysNodup m.store) (p : Pair) :
    mget m p = ((mentries m).map (fun e => if e.1 = p then e.2 else 0)).sum := by
  rw [mget_eq_entries]
  exact assocGetD_eq_sum (keysNodup_mentries h) p

theorem mget_mtransposed (m : MMatrix) (p : Pair) :
    mget (mtransposed m) p = mget m (p.2, p.1) := by
  unfold mget mtransposed physKey
  rcases m.transposed <;> simp

/-! ## Read-modify-write accumulation -/

/-- One accumulation step of the multiplication loop: `c.set(p, c.get(p) + δ)`. -/
def accumStep (ins : List Entry → Pair → ℚ → List Entry) (c : MMatrix) (s : Entry) :
    MMatrix :=
  mset ins c s.1 (mget c s.1 + s.2)

/-- Total contribution of a list of (position, addend) steps to one position. -/
def contribList (p : Pair) (l : List Entry) : ℚ :=
  (l.map (fun s => if s.1 = p then s.2 else 0)).sum

theorem contribList_nil (p : Pair) : contribList p [] = 0 := rfl

theorem contribList_cons (p : Pair) (s : Entry) (l : List Entry) :
    contribList p (s :: l) = (if s.1 = p then s.2 else 0) + contribList p l := by
  simp [contribList]

theorem contribList_append (p : Pair) (l1 l2 : List Entry) :
    contribList p (l1 ++ l2) = contribList p l1 + contribList p l2 := by
  simp [contribList]

theorem accum_foldl {ins : List Entry → Pair → ℚ → List Entry} {Inv : List Entry → Prop}
    (L : InsOk ins Inv) (steps : List Entry) (c : MMatrix) (hc : Inv c.store) :
    Inv (steps.foldl (accumStep ins) c).store ∧
      (steps.foldl (accumStep ins) c).size = c.size ∧
      (steps.foldl (accumStep ins) c).transposed = c.transposed ∧
      ∀ p, mget (steps.foldl (accumStep ins) c) p = mget c p + contribList p steps := by
  induction steps generalizing c with
  | nil =>
    refine ⟨hc, rfl, rfl, fun p => ?_⟩
    simp [contribList_nil]
  | cons s rest ih =>
    have hc1 : Inv (accumStep ins c s).store := mset_inv L hc s.1 (mget c s.1 + s.2)
    rcases ih (accumStep ins c s) hc1 with ⟨h1, h2, h3, h4⟩
    rw [List.foldl_cons]
    refine ⟨h1, ?_, ?_, fun p => ?_⟩
    · rw [h2]
      exact mset_size ins c s.1 (mget c s.1 + s.2)
    · rw [h3]
      exact mset_flag ins c s.1 (mget c s.1 + s.2)
    · rw [h4 p, contribList_cons]
      unfold accumStep
      rw [mget_mset L hc s.1 (mget c s.1 + s.2) p]
      by_cases hp : p = s.1
      · have hp2 : s.1 = p := hp.symm
        rw [if_pos hp, if_pos hp2, hp]
        ring
      · have hp2 : ¬ s.1 = p := fun h => hp h.symm
        rw [if_neg hp, if_neg hp2]
        ring

theorem foldlM_option_eq_foldl {α β : Type} (f : β → α → β) (l : List α) (b0 : β) :
    l.foldlM (m := Option) (fun b a => some (f b a)) b0 = some (l.foldl f b0) := by
  induction l generalizing b0 with
  | nil => rfl
  | cons a rest ih =>
    rw [List.foldlM_cons, List.foldl_cons]
    simpa using ih (f b0 a)

/-- Under a compatible pair of shapes every assertion in the multiplication
loop passes, and the loop is a plain accumulation fold. -/
theorem mmul_eq_some (ins : List Entry → Pair → ℚ → List Entry)
    (atv : List (ℕ × List Entry) → ℕ → Entry → List (ℕ × List Entry))
    (a b : MMatrix) (h : a.size.2 = b.size.1) :
    mmul ins atv a b = some
      (((mulPairs atv a b).map (fun pr => ((pr.1.1.1, pr.2.1.2), pr.2.2 * pr.1.2))).foldl
        (accumStep ins) (mnew (a.size.1, b.size.2))) := by
  unfold mmul
  have hstep : (fun (c : MMatrix) (pr : Entry × Entry) =>
      if a.size.2 = b.size.1 then
        some (mset ins c (pr.1.1.1, pr.2.1.2) (mget c (pr.1.1.1, pr.2.1.2) + pr.2.2 * pr.1.2))
      else none)
      = fun (c : MMatrix) (pr : Entry × Entry) =>
        some (accumStep ins c ((pr.1.1.1, pr.2.1.2), pr.2.2 * pr.1.2)) := by
    funext c pr
    rw [if_pos h]
    rfl
  rw [hstep, foldlM_option_eq_foldl, List.foldl_map]

/-- With incompatible shapes, the loop panics at the first accumulated pair. -/
theorem mmul_eq_none (ins : List Entry → Pair → ℚ → List Entry)
    (atv : List (ℕ × List Entry) → ℕ → Entry → List (ℕ × List Entry))
    (a b : MMatrix) (h : ¬ a.size.2 = b.size.1) (hne : mulPairs atv a b ≠ []) :
    mmul ins atv a b = none := by
  unfold mmul
  rcases hp : mulPairs atv a b with _ | ⟨pr, rest⟩
  · exact absurd hp hne
  · rw [List.foldlM_cons]
    simp [if_neg h]

/-! ## Grouping characterization -/

theorem group_get_general {atv : List (ℕ × List Entry) → ℕ → Entry → List (ℕ × List Entry)}
    {Inv : List (ℕ × List Entry) → Prop} (A : AtvOk atv Inv) (key : Entry → ℕ)
    (l : List Entry) (g0 : List (ℕ × List Entry)) (h0 : Inv g0) (i : ℕ) :
    assocGet (l.foldl (fun g e => atv g (key e) e) g0) i =
      if l.filter (fun e => decide (key e = i)) = [] then assocGet g0 i
      else some (((assocGet g0 i).getD []) ++ l.filter (fun e => decide (key e = i))) := by
  induction l generalizing g0 with
  | nil => simp
  | cons e rest ih =>
    rw [List.foldl_cons, ih (atv g0 (key e) e) (A.inv_atv g0 (key e) e h0)]
    rw [A.get_atv g0 (key e) e i h0]
    by_cases hk : key e = i
    · have hik : i = key e := hk.symm
      rw [if_pos hik]
      have hfe : (e :: rest).filter (fun e => decide (key e = i)) =
          e :: rest.filter (fun e => decide (key e = i)) := by
        simp [List.filter_cons, hk]
      rw [hfe]
      by_cases hr : rest.filter (fun e => decide (key e = i)) = []
      · rw [if_pos hr, if_neg (List.cons_ne_nil e _), hr, hk]
      · rw [if_neg hr, if_neg (List.cons_ne_nil e _), hk]
        simp [List.append_assoc]
    · have hik : ¬ i = key e := fun h => hk h.symm
      rw [if_neg hik]
      have hfe : (e :: rest).filter (fun e => decide (key e = i)) =
          rest.filter (fun e => decide (key e = i)) := by
        simp [List.filter_cons, hk]
      rw [hfe]

theorem group_get {atv : List (ℕ × List Entry) → ℕ → Entry → List (ℕ × List Entry)}
    {Inv : List (ℕ × List Entry) → Prop} (A : AtvOk atv Inv) (key : Entry → ℕ)
    (l : List Entry) (i : ℕ) :
    assocGet (l.foldl (fun g e => atv g (key e) e) []) i =
      if l.filter (fun e => decide (key e = i)) = [] then none
      else some (l.filter (fun e => decide (key e = i))) := by
  rw [group_get_general A key l [] A.inv_nil i]
  rcases h : l.filter (fun e => decide (key e = i)) with _ | _
  · simp [assocGet]
  · simp [assocGet]

theorem group_inv {atv : List (ℕ × List Entry) → ℕ → Entry → List (ℕ × List Entry)}
    {Inv : List (ℕ × List Entry) → Prop} (A : AtvOk atv Inv) (key : Entry → ℕ)
    (l : List Entry) : Inv (l.foldl (fun g e => atv g (key e) e) []) :=
  foldl_preserve Inv _ (fun g e h => A.inv_atv g (key e) e h) l [] A.inv_nil

/-! ## List sum helpers -/

theorem sum_map_add {α : Type} (f g : α → ℚ) (l : List α) :
    (l.map (fun x => f x + g x)).sum = (l.map f).sum + (l.map g).sum := by
  induction l with
  | nil => simp
  | cons a rest ih =>
    simp only [List.map_cons, List.sum_cons, ih]
    ring

theorem sum_map_flatMap {α β : Type} (g : α → List β) (f : β → ℚ) (l : List α) :
    ((l.flatMap g).map f).sum = (l.map (fun x => ((g x).map f).sum)).sum := by
  induction l with
  | nil => simp
  | cons a rest ih => simp [ih]

theorem sum_sum_comm {α β : Type} (f : α → β → ℚ) (l : List α) (m : List β) :
    (l.map (fun x => (m.map (fun y => f x y)).sum)).sum =
      (m.map (fun y => (l.map (fun x => f x y)).sum)).sum := by
  induction l with
  | nil => simp
  | cons a rest ih =>
    simp only [List.map_cons, List.sum_cons, ih]
    rw [← sum_map_add]

theorem sum_map_filter_eq {α : Type} (p : α → Bool) (f : α → ℚ) (l : List α) :
    ((l.filter p).map f).sum = (l.map (fun x => if p x then f x else 0)).sum := by
  induction l with
  | nil => simp
  | cons a rest ih =>
    rcases h : p a with _ | _
    · simp [List.filter_cons, h, ih]
    · simp [List.filter_cons, h, ih]

theorem sum_map_filter_split {α : Type} (p : α → Bool) (f : α → ℚ) (l : List α) :
    (l.map f).sum = ((l.filter p).map f).sum + ((l.filter (fun x => ! p x)).map f).sum := by
  rw [sum_map_filter_eq, sum_map_filter_eq, ← sum_map_add]
  congr 1
  apply List.map_congr_left
  intro x _
  rcases h : p x with _ | _ <;> simp [h]

theorem sum_regroup {α : Type} (key : α → ℕ) (f : α → ℚ) (ks : List ℕ) (hnd : ks.Nodup)
    (l : List α) (hcov : ∀ x ∈ l, key x ∈ ks) :
    (l.map f).sum =
      (ks.map (fun i => ((l.filter (fun x => decide (key x = i))).map f).sum)).sum := by
  induction ks generalizing l with
  | nil =>
    have : l = [] := by
      rcases l with _ | ⟨x, rest⟩
      · rfl
      · exact absurd (hcov x (List.mem_cons_self x rest)) (List.not_mem_nil (key x))
    simp [this]
  | cons i ks2 ih =>
    have hnd2 : ks2.Nodup := (List.nodup_cons.1 hnd).2
    have hni : i ∉ ks2 := (List.nodup_cons.1 hnd).1
    rw [sum_map_filter_split (fun x => decide (key x = i)) f l]
    rw [List.map_cons, List.sum_cons]
    congr 1
    have hcov2 : ∀ x ∈ l.filter (fun x => ! decide (key x = i)), key x ∈ ks2 := by
      intro x hx
      have hxl : x ∈ l := List.mem_of_mem_filter hx
      have hxne : ¬ key x = i := by simpa using List.of_mem_filter hx
      rcases List.mem_cons.1 (hcov x hxl) with h1 | h2
      · exact absurd h1 hxne
      · exact h2
    rw [ih hnd2 (l.filter (fun x => ! decide (key x = i))) hcov2]
    apply congrArg
    apply List.map_congr_left
    intro j hj
    rw [List.filter_filter]
    have hfe : List.filter (fun a => decide (key a = j) && ! decide (key a = i)) l
        = List.filter (fun x => decide (key x = j)) l := by
      apply List.filter_congr
      intro x _
      by_cases h : key x = j
      · have hne : ¬ key x = i := by
          rw [h]
          intro hc
          exact hni (hc ▸ hj)
        have hji : ¬ j = i := fun hc => hni (hc ▸ hj)
        simp [h, hne, hji]
      · simp [h]
    rw [hfe]

/-! ## The multiplication contribution sum -/

/-- Contribution of one matched entry pair to the output position `p`. -/
def pairContrib (p : Pair) (pr : Entry × Entry) : ℚ :=
  if (pr.1.1.1, pr.2.1.2) = p then pr.2.2 * pr.1.2 else 0

theorem contribList_map_pairs (p : Pair) (L : List (Entry × Entry)) :
    contribList p (L.map (fun pr => ((pr.1.1.1, pr.2.1.2), pr.2.2 * pr.1.2))) =
      (L.map (pairContrib p)).sum := by
  unfold contribList pairContrib
  rw [List.map_map]
  rfl

theorem bucket_sum {atv : List (ℕ × List Entry) → ℕ → Entry → List (ℕ × List Entry)}
    {Inv : List (ℕ × List Entry) → Prop} (A : AtvOk atv Inv) (b : MMatrix) (p : Pair)
    (i : ℕ) (av : List Entry) :
    ((bucketCross av
        (assocGet ((mentries b).foldl (fun g e => atv g e.1.1 e) []) i)).map
      (pairContrib p)).sum =
    (av.map (fun ae =>
      (((mentries b).filter (fun e => decide (e.1.1 = i))).map (fun be =>
        pairContrib p (ae, be))).sum)).sum := by
  rw [group_get A (fun e => e.1.1) (mentries b) i]
  by_cases hbf : (mentries b).filter (fun e => decide (e.1.1 = i)) = []
  · rw [if_pos hbf, hbf]
    simp [bucketCross]
  · rw [if_neg hbf]
    unfold bucketCross
    rw [sum_map_flatMap]
    apply congrArg
    apply List.map_congr_left
    intro ae _
    rw [List.map_map]
    rfl

theorem contrib_mulPairs {atv : List (ℕ × List Entry) → ℕ → Entry → List (ℕ × List Entry)}
    {Inv : List (ℕ × List Entry) → Prop} (A : AtvOk atv Inv) (a b : MMatrix) (p : Pair) :
    ((mulPairs atv a b).map (pairContrib p)).sum =
      ((mentries a).map (fun ae =>
        ((mentries b).map (fun be =>
          if ae.1.2 = be.1.1 ∧ ae.1.1 = p.1 ∧ be.1.2 = p.2 then be.2 * ae.2 else 0)).sum)).sum := by
  have hAnd : KeysNodup ((mentries a).foldl (fun g e => atv g e.1.2 e) []) :=
    A.nodup _ (group_inv A (fun e => e.1.2) (mentries a))
  simp only [mulPairs]
  rw [sum_map_flatMap]
  trans (((mentries a).foldl (fun g e => atv g e.1.2 e) []).map (fun ib =>
      (((mentries a).filter (fun e => decide (e.1.2 = ib.1))).map (fun ae =>
        (((mentries b).filter (fun e => decide (e.1.1 = ib.1))).map (fun be =>
          pairContrib p (ae, be))).sum)).sum)).sum
  · apply congrArg
    apply List.map_congr_left
    intro ib hib
    rw [bucket_sum A b p ib.1 ib.2]
    have hib2 : ib.2 = (mentries a).filter (fun e => decide (e.1.2 = ib.1)) := by
      have hmem : assocGet ((mentries a).foldl (fun g e => atv g e.1.2 e) []) ib.1
          = some ib.2 := by
        have hin : (ib.1, ib.2) ∈ (mentries a).foldl (fun g e => atv g e.1.2 e) [] := by
          rcases ib with ⟨i1, i2⟩
          exact hib
        exact (mem_iff_assocGet hAnd ib.1 ib.2).1 hin
      rw [group_get A (fun e => e.1.2) (mentries a) ib.1] at hmem
      by_cases hf : (mentries a).filter (fun e => decide (e.1.2 = ib.1)) = []
      · rw [if_pos hf] at hmem
        exact Option.noConfusion hmem
      · rw [if_neg hf] at hmem
        injection hmem with hmem
        exact hmem.symm
    rw [hib2]
  have hmapmap :
      (((mentries a).foldl (fun g e => atv g e.1.2 e) []).map (fun ib =>
        (((mentries a).filter (fun e => decide (e.1.2 = ib.1))).map (fun ae =>
          (((mentries b).filter (fun e => decide (e.1.1 = ib.1))).map (fun be =>
            pairContrib p (ae, be))).sum)).sum)).sum
      = (((((mentries a).foldl (fun g e => atv g e.1.2 e) []).map Prod.fst)).map (fun i =>
        (((mentries a).filter (fun e => decide (e.1.2 = i))).map (fun ae =>
          (((mentries b).filter (fun e => decide (e.1.1 = i))).map (fun be =>
            pairContrib p (ae, be))).sum)).sum)).sum := by
    rw [List.map_map]
    rfl
  rw [hmapmap]
  rw [sum_regroup (fun ae => ae.1.2)
    (fun ae => ((mentries b).map (fun be =>
      if ae.1.2 = be.1.1 ∧ ae.1.1 = p.1 ∧ be.1.2 = p.2 then be.2 * ae.2 else 0)).sum)
    ((((mentries a).foldl (fun g e => atv g e.1.2 e) []).map Prod.fst))
    (show ((((mentries a).foldl (fun g e => atv g e.1.2 e) []).map Prod.fst)).Nodup from hAnd)
    (mentries a) ?hcov]
  case hcov =>
    intro ae hae
    rw [← assocGet_isSome_iff]
    rw [group_get A (fun e => e.1.2) (mentries a) ae.1.2]
    have hin : ae ∈ (mentries a).filter (fun e => decide (e.1.2 = ae.1.2)) :=
      List.mem_filter.2 ⟨hae, by simp⟩
    have hne : (mentries a).filter (fun e => decide (e.1.2 = ae.1.2)) ≠ [] := by
      intro hc
      rw [hc] at hin
      exact List.not_mem_nil ae hin
    rw [if_neg hne]
    rfl
  apply congrArg
  apply List.map_congr_left
  intro i _
  apply congrArg
  apply List.map_congr_left
  intro ae hae
  have hcol : ae.1.2 = i := by simpa using (List.of_mem_filter hae)
  rw [sum_map_filter_eq]
  apply congrArg
  apply List.map_congr_left
  intro be _
  unfold pairContrib
  by_cases h1 : be.1.1 = i
  · rw [if_pos (by simpa using h1)]
    by_cases h2 : ae.1.1 = p.1 ∧ be.1.2 = p.2
    · have hcond : ae.1.2 = be.1.1 ∧ ae.1.1 = p.1 ∧ be.1.2 = p.2 :=
        ⟨by rw [hcol, h1], h2.1, h2.2⟩
      have hpos : (ae.1.1, be.1.2) = p := by
        rcases p with ⟨p1, p2⟩
        simp only [Prod.mk.injEq]
        exact ⟨h2.1, h2.2⟩
      rw [if_pos hcond, if_pos hpos]
    · have hcond : ¬ (ae.1.2 = be.1.1 ∧ ae.1.1 = p.1 ∧ be.1.2 = p.2) := by
        intro hc
        exact h2 ⟨hc.2.1, hc.2.2⟩
      have hpos : ¬ (ae.1.1, be.1.2) = p := by
        intro hc
        rcases p with ⟨p1, p2⟩
        simp only [Prod.mk.injEq] at hc
        exact h2 ⟨hc.1, hc.2⟩
      rw [if_neg hcond, if_neg hpos]
  · rw [if_neg (by simpa using h1)]
    have hcond : ¬ (ae.1.2 = be.1.1 ∧ ae.1.1 = p.1 ∧ be.1.2 = p.2) := by
      intro hc
      exact h1 (by rw [← hc.1, hcol])
    rw [if_neg hcond]

theorem range_sum_eq (n : ℕ) (f : ℕ → ℚ) :
    (Finset.range n).sum f = ((List.range n).map f).sum := rfl

theorem sum_range_match (N i j : ℕ) (ae be : Entry) (hA : ae.1.2 < N) :
    ((List.range N).map (fun k =>
      (if ae.1 = (i, k) then ae.2 else 0) * (if be.1 = (k, j) then be.2 else 0))).sum
    = if ae.1.2 = be.1.1 ∧ ae.1.1 = i ∧ be.1.2 = j then be.2 * ae.2 else 0 := by
  rw [← range_sum_eq]
  have hcong : ∀ k ∈ Finset.range N,
      (if ae.1 = (i, k) then ae.2 else 0) * (if be.1 = (k, j) then be.2 else 0)
      = if k = ae.1.2 then
          (if ae.1.2 = be.1.1 ∧ ae.1.1 = i ∧ be.1.2 = j then be.2 * ae.2 else 0)
        else 0 := by
    intro k _
    by_cases hk : k = ae.1.2
    · subst hk
      have hiff1 : (ae.1 = (i, ae.1.2)) ↔ ae.1.1 = i := by
        rw [Prod.ext_iff]
        simp
      have hiff2 : (be.1 = (ae.1.2, j)) ↔ (ae.1.2 = be.1.1 ∧ be.1.2 = j) := by
        rw [Prod.ext_iff]
        constructor
        · intro h
          exact ⟨h.1.symm, h.2⟩
        · intro h
          exact ⟨h.1.symm, h.2⟩
      rw [if_pos rfl]
      by_cases c1 : ae.1.1 = i
      · by_cases c2 : ae.1.2 = be.1.1
        · by_cases c3 : be.1.2 = j
          · rw [if_pos (hiff1.2 c1), if_pos (hiff2.2 ⟨c2, c3⟩), if_pos ⟨c2, c1, c3⟩]
            ring
          · rw [if_pos (hiff1.2 c1), if_neg (fun hc => c3 (hiff2.1 hc).2),
              if_neg (fun hc => c3 hc.2.2)]
            ring
        · rw [if_pos (hiff1.2 c1), if_neg (fun hc => c2 (hiff2.1 hc).1),
            if_neg (fun hc => c2 hc.1)]
          ring
      · rw [if_neg (fun hc => c1 (hiff1.1 hc)), zero_mul, if_neg (fun hc => c1 hc.2.1)]
    · have hna : ¬ ae.1 = (i, k) := by
        intro hc
        apply hk
        rw [hc]
      simp [hna, hk]
  rw [Finset.sum_congr rfl hcong, Finset.sum_ite_eq' (Finset.range N) ae.1.2 _]
  simp [Finset.mem_range.2 hA]

theorem nested_to_range (a b : MMatrix) (ha : KeysNodup a.store) (hb : KeysNodup b.store)
    (N : ℕ) (haN : ∀ e ∈ mentries a, e.1.2 < N) (i j : ℕ) :
    ((mentries a).map (fun ae =>
      ((mentries b).map (fun be =>
        if ae.1.2 = be.1.1 ∧ ae.1.1 = i ∧ be.1.2 = j then be.2 * ae.2 else 0)).sum)).sum
    = ∑ k ∈ Finset.range N, mget a (i, k) * mget b (k, j) := by
  symm
  rw [range_sum_eq]
  have hget : (fun k => mget a (i, k) * mget b (k, j))
      = fun k => ((mentries a).map (fun ae => if ae.1 = (i, k) then ae.2 else 0)).sum *
          ((mentries b).map (fun be => if be.1 = (k, j) then be.2 else 0)).sum := by
    funext k
    rw [mget_sum_entries ha (i, k), mget_sum_entries hb (k, j)]
  rw [hget]
  have hprod : (fun k => ((mentries a).map (fun ae => if ae.1 = (i, k) then ae.2 else 0)).sum *
      ((mentries b).map (fun be => if be.1 = (k, j) then be.2 else 0)).sum)
      = fun k => ((mentries a).map (fun ae => ((mentries b).map (fun be =>
          (if ae.1 = (i, k) then ae.2 else 0) * (if be.1 = (k, j) then be.2 else 0))).sum)).sum := by
    funext k
    rw [← List.sum_map_mul_right]
    apply congrArg
    apply List.map_congr_left
    intro ae _
    rw [← List.sum_map_mul_left]
  rw [hprod]
  rw [sum_sum_comm (fun k ae => ((mentries b).map (fun be =>
      (if ae.1 = (i, k) then ae.2 else 0) * (if be.1 = (k, j) then be.2 else 0))).sum)
    (List.range N) (mentries a)]
  apply congrArg
  apply List.map_congr_left
  intro ae hae
  rw [sum_sum_comm (fun k be =>
      (if ae.1 = (i, k) then ae.2 else 0) * (if be.1 = (k, j) then be.2 else 0))
    (List.range N) (mentries b)]
  apply congrArg
  apply List.map_congr_left
  intro be _
  exact sum_range_match N i j ae be (haN ae hae)

/-- The generic correctness of `MapMatrix::mul` over any lawful store pair:
with compatible shapes the product is returned (no assertion fires), has
dimensions `(a.rows, b.cols)`, and every cell holds the standard product
value. -/
theorem mmul_correct_param {ins : List Entry → Pair → ℚ → List Entry}
    {Inv : List Entry → Prop} (L : InsOk ins Inv)
    {atv : List (ℕ × List Entry) → ℕ → Entry → List (ℕ × List Entry)}
    {AInv : List (ℕ × List Entry) → Prop} (A : AtvOk atv AInv) (a b : MMatrix)
    (hsa : Inv a.store) (hsb : Inv b.store) (hcompat : a.size.2 = b.size.1) :
    ∃ c, mmul ins atv a b = some c ∧ c.size = (a.size.1, b.size.2) ∧
      c.transposed = false ∧ Inv c.store ∧
      ∀ N, (∀ e ∈ mentries a, e.1.2 < N) →
        ∀ i j, mget c (i, j) = ∑ k ∈ Finset.range N, mget a (i, k) * mget b (k, j) := by
  rcases accum_foldl L
      ((mulPairs atv a b).map (fun pr => ((pr.1.1.1, pr.2.1.2), pr.2.2 * pr.1.2)))
      (mnew (a.size.1, b.size.2)) L.inv_nil with ⟨h1, h2, h3, h4⟩
  refine ⟨_, mmul_eq_some ins atv a b hcompat, ?_, ?_, h1, ?_⟩
  · rw [h2]
    rfl
  · rw [h3]
    rfl
  · intro N haN i j
    rw [h4 (i, j)]
    have hmz : mget (mnew (a.size.1, b.size.2)) (i, j) = 0 := rfl
    rw [hmz, zero_add]
    rw [contribList_map_pairs (i, j) (mulPairs atv a b)]
    rw [contrib_mulPairs A a b (i, j)]
    exact nested_to_range a b (L.nodup _ hsa) (L.nodup _ hsb) N haN i j

/-! ## from_info, transpose and add lemmas -/

theorem assocGet_mem {K V : Type} [DecidableEq K] {m : List (K × V)} {k : K} {v : V}
    (h : assocGet m k = some v) : (k, v) ∈ m := by
  induction m with
  | nil => exact Option.noConfusion h
  | cons e rest ih =>
    rw [assocGet] at h
    by_cases he : e.1 = k
    · rw [if_pos he] at h
      injection h with h
      have he2 : (k, v) = e := by
        have he3 : e = (e.1, e.2) := rfl
        rw [he3, he, h]
      rw [he2]
      exact List.mem_cons_self e rest
    · rw [if_neg he] at h
      exact List.mem_cons.2 (Or.inr (ih h))

theorem mfromInfo_inv {ins : List Entry → Pair → ℚ → List Entry} {Inv : List Entry → Prop}
    (L : InsOk ins Inv) (info : MatrixInfo) : Inv (mfromInfo ins info).store :=
  foldl_preserve Inv _ (fun m e h => L.inv_ins m e.1 e.2 h) info.values [] L.inv_nil

theorem mfromInfo_store_get {ins : List Entry → Pair → ℚ → List Entry}
    {Inv : List Entry → Prop} (L : InsOk ins Inv) (info : MatrixInfo) (p : Pair) :
    assocGet (mfromInfo ins info).store p = lastW info.values p := by
  unfold mfromInfo
  rw [assocGet_foldl_ins ins L.get_ins info.values [] p]
  rcases h : lastW info.values p with _ | v
  · rfl
  · rfl

theorem mget_mfromInfo {ins : List Entry → Pair → ℚ → List Entry} {Inv : List Entry → Prop}
    (L : InsOk ins Inv) (info : MatrixInfo) (p : Pair) :
    mget (mfromInfo ins info) p = infoGetD info p := by
  unfold mget infoGetD
  rw [show (mfromInfo ins info).transposed = false from rfl]
  rw [show physKey false p = p from rfl]
  rw [mfromInfo_store_get L info p]

theorem mfromInfo_keys {ins : List Entry → Pair → ℚ → List Entry} {Inv : List Entry → Prop}
    (L : InsOk ins Inv) (info : MatrixInfo) :
    ∀ e ∈ (mfromInfo ins info).store, e.1 ∈ info.values.map Prod.fst := by
  intro e he
  have hnd : KeysNodup (mfromInfo ins info).store := L.nodup _ (mfromInfo_inv L info)
  have hget : assocGet (mfromInfo ins info).store e.1 = some e.2 := by
    refine (mem_iff_assocGet hnd e.1 e.2).1 ?_
    have he2 : e = (e.1, e.2) := rfl
    rw [← he2]
    exact he
  rw [mfromInfo_store_get L info e.1] at hget
  by_contra hc
  rw [← lastW_eq_none_iff] at hc
  rw [hc] at hget
  exact Option.noConfusion hget

theorem mentries_flag_false {m : MMatrix} (h : m.transposed = false) :
    mentries m = m.store := by
  unfold mentries
  rw [h]
  simp

theorem mentries_mtransposed (m : MMatrix) :
    mentries (mtransposed m) = (mentries m).map (fun e => ((e.1.2, e.1.1), e.2)) := by
  unfold mentries mtransposed
  rcases h : m.transposed
  · simp
  · show m.store = List.map (fun e : Entry => ((e.1.2, e.1.1), e.2))
      (List.map (fun e : Entry => ((e.1.2, e.1.1), e.2)) m.store)
    rw [List.map_map]
    have hid : ∀ e ∈ m.store,
        ((fun e : Entry => ((e.1.2, e.1.1), e.2)) ∘ fun e : Entry => ((e.1.2, e.1.1), e.2)) e
          = id e := fun e _ => rfl
    rw [List.map_congr_left hid, List.map_id]

theorem stored_iff_get {m : MMatrix} (h : ∀ e ∈ m.store, e.2 ≠ 0) (p : Pair) :
    (assocGet m.store (physKey m.transposed p)).isSome = true ↔ mget m p ≠ 0 := by
  rcases hg : assocGet m.store (physKey m.transposed p) with _ | v
  · simp [mget, hg]
  · have hv : v ≠ 0 := h (physKey m.transposed p, v) (assocGet_mem hg)
    simp [mget, hg, hv]

theorem madd_foldl {ins : List Entry → Pair → ℚ → List Entry} {Inv : List Entry → Prop}
    (L : InsOk ins Inv) (a : MMatrix) (bL : List Entry) (hbL : KeysNodup bL)
    (c0 : MMatrix) (hc0 : Inv c0.store) :
    Inv (bL.foldl (fun c e => mset ins c e.1 (mget a e.1 + e.2)) c0).store ∧
    (bL.foldl (fun c e => mset ins c e.1 (mget a e.1 + e.2)) c0).size = c0.size ∧
    ((∀ e ∈ c0.store, e.2 ≠ 0) →
      ∀ e ∈ (bL.foldl (fun c e => mset ins c e.1 (mget a e.1 + e.2)) c0).store, e.2 ≠ 0) ∧
    ∀ p, mget (bL.foldl (fun c e => mset ins c e.1 (mget a e.1 + e.2)) c0) p =
      match assocGet bL p with
      | some v => mget a p + v
      | none => mget c0 p := by
  induction bL generalizing c0 with
  | nil =>
    refine ⟨hc0, rfl, fun h => h, fun p => ?_⟩
    rfl
  | cons e rest ih =>
    have hrest : KeysNodup rest := (List.nodup_cons.1 hbL).2
    have hkey : e.1 ∉ rest.map Prod.fst := (List.nodup_cons.1 hbL).1
    have hc1 : Inv (mset ins c0 e.1 (mget a e.1 + e.2)).store :=
      mset_inv L hc0 e.1 (mget a e.1 + e.2)
    rcases ih hrest (mset ins c0 e.1 (mget a e.1 + e.2)) hc1 with ⟨h1, h2, h3, h4⟩
    rw [List.foldl_cons]
    refine ⟨h1, ?_, ?_, fun p => ?_⟩
    · rw [h2, mset_size]
    · intro hz
      exact h3 (mset_noZero L hz e.1 (mget a e.1 + e.2))
    · rw [h4 p, assocGet]
      by_cases hp : e.1 = p
      · have hrp : assocGet rest p = none := by
          rw [assocGet_eq_none_iff, ← hp]
          exact hkey
        rw [hrp, if_pos hp]
        rw [mget_mset L hc0 e.1 (mget a e.1 + e.2) p]
        rw [if_pos hp.symm, hp]
      · rw [if_neg hp]
        rcases hr : assocGet rest p with _ | v
        · rw [mget_mset L hc0 e.1 (mget a e.1 + e.2) p]
          rw [if_neg (fun hc => hp hc.symm)]
        · rfl

/-- The generic behaviour of `MapMatrix::add`: no shape check happens, the
result always exists with `a`'s dimensions and reads as the cell-wise sum. -/
theorem madd_correct {ins : List Entry → Pair → ℚ → List Entry} {Inv : List Entry → Prop}
    (L : InsOk ins Inv) (a b : MMatrix) (hsa : Inv a.store) (hsb : Inv b.store)
    (hza : ∀ e ∈ a.store, e.2 ≠ 0) :
    (madd ins a b).size = a.size ∧ Inv (madd ins a b).store ∧
      (∀ e ∈ (madd ins a b).store, e.2 ≠ 0) ∧
      ∀ p, mget (madd ins a b) p = mget a p + mget b p := by
  have hbe : KeysNodup (mentries b) := keysNodup_mentries (L.nodup _ hsb)
  have hc0 : Inv (⟨a.size, a.store, a.transposed⟩ : MMatrix).store := hsa
  rcases madd_foldl L a (mentries b) hbe ⟨a.size, a.store, a.transposed⟩ hc0 with
    ⟨h1, h2, h3, h4⟩
  refine ⟨h2, h1, h3 hza, fun p => ?_⟩
  rw [show madd ins a b =
    (mentries b).foldl (fun c e => mset ins c e.1 (mget a e.1 + e.2))
      ⟨a.size, a.store, a.transposed⟩ from rfl]
  rw [h4 p]
  have hgc : mget (⟨a.size, a.store, a.transposed⟩ : MMatrix) p = mget a p := rfl
  rcases hg : assocGet (mentries b) p with _ | v
  · have : mget b p = 0 := by
      rw [mget_eq_entries, hg]
      rfl
    rw [this, hgc, add_zero]
  · have : mget b p = v := by
      rw [mget_eq_entries, hg]
      rfl
    rw [this]

/-! ## The equality helper info_eq -/

theorem expMapFold_get (l : List Entry) (p : Pair) :
    assocGet (expMapFold l) p = lastW l p := by
  unfold expMapFold
  rw [assocGet_foldl_ins hashIns (fun m k v k' => hash_get_ins m k v k') l [] p]
  rcases h : lastW l p with _ | v
  · rfl
  · rfl

/-- What `info_eq` actually computes: the sizes must agree and every entry of
the second snapshot must match the last-written value at its position in the
first snapshot within `EPSILON`; entries only present in the first snapshot
are never examined. -/
theorem info_eq_iff (e c : MatrixInfo) :
    info_eq e c = true ↔
      (e.size = c.size ∧
        ∀ cv ∈ c.values, ∃ w, lastW e.values cv.1 = some w ∧ |w - cv.2| ≤ EPS) := by
  unfold info_eq
  by_cases hs : e.size = c.size
  · rw [if_pos hs, List.all_eq_true]
    constructor
    · intro h
      refine ⟨hs, fun cv hcv => ?_⟩
      have := h cv hcv
      rw [expMapFold_get e.values cv.1] at this
      rcases hw : lastW e.values cv.1 with _ | w
      · rw [hw] at this
        exact Bool.noConfusion this
      · rw [hw] at this
        simp only [decide_eq_true_eq] at this
        exact ⟨w, rfl, this⟩
    · intro h cv hcv
      rcases h.2 cv hcv with ⟨w, hw, hle⟩
      rw [expMapFold_get e.values cv.1, hw]
      simpa using hle
  · rw [if_neg hs]
    constructor
    · intro h
      exact Bool.noConfusion h
    · intro h
      exact absurd h.1 hs

/-! ## Dense table lemmas -/

/-- Well-formed backing table: `R` rows of `C` cells each. -/
def dWf (d : List (List ℚ)) (R C : ℕ) : Prop :=
  d.length = R ∧ ∀ row ∈ d, row.length = C

/-- Reading a dense cell with absent cells as zero (a proof-side reading of a
well-formed table; in-bounds it matches the total value of `TableMatrix::get`). -/
def tcell (m : TableMatrix) (p : Pair) : ℚ := (lookup2 m.data p).getD 0

theorem twf_iff (m : TableMatrix) : TWf m ↔ dWf m.data m.size.1 m.size.2 := Iff.rfl

theorem tNew_dWf (R C : ℕ) : dWf (tNew (R, C)).data R C := by
  constructor
  · simp [tNew]
  · intro row hrow
    rcases List.eq_of_mem_replicate hrow with h
    rw [h]
    simp

theorem lookup2_isSome {d : List (List ℚ)} {R C : ℕ} (h : dWf d R C) (p : Pair) :
    (lookup2 d p).isSome = true ↔ (p.1 < R ∧ p.2 < C) := by
  unfold lookup2
  rcases hr : d.get? p.1 with _ | row
  · have hlen : d.length ≤ p.1 := List.get?_eq_none.1 hr
    rw [h.1] at hlen
    show (Option.none.isSome = true) ↔ _
    constructor
    · intro hc
      exact Bool.noConfusion hc
    · intro hc
      exact absurd hc.1 (by omega)
  · have hmem : row ∈ d := List.get?_mem hr
    have hrc : row.length = C := h.2 row hmem
    have hp1 : p.1 < d.length := by
      by_contra hc
      rw [List.get?_eq_none.2 (by omega)] at hr
      exact Option.noConfusion hr
    rw [h.1] at hp1
    show ((row.get? p.2).isSome = true) ↔ _
    rcases hv : row.get? p.2 with _ | v
    · have hle : row.length ≤ p.2 := List.get?_eq_none.1 hv
      rw [hrc] at hle
      constructor
      · intro hc
        exact Bool.noConfusion hc
      · intro hc
        exact absurd hc.2 (by omega)
    · have hp2 : p.2 < row.length := by
        by_contra hc
        rw [List.get?_eq_none.2 (by omega)] at hv
        exact Option.noConfusion hv
      rw [hrc] at hp2
      simp only [Option.isSome_some, true_iff]
      exact ⟨hp1, hp2⟩

theorem lookup2_eq_none {d : List (List ℚ)} {R C : ℕ} (h : dWf d R C) (p : Pair)
    (hp : ¬ (p.1 < R ∧ p.2 < C)) : lookup2 d p = none := by
  rcases hl : lookup2 d p with _ | v
  · rfl
  · have : (lookup2 d p).isSome = true := by rw [hl]; rfl
    exact absurd ((lookup2_isSome h p).1 this) hp

theorem lookup2_eq_some {d : List (List ℚ)} {R C : ℕ} (h : dWf d R C) (p : Pair)
    (h1 : p.1 < R) (h2 : p.2 < C) : lookup2 d p = some ((lookup2 d p).getD 0) := by
  rcases hl : lookup2 d p with _ | v
  · have : (lookup2 d p).isSome = true := (lookup2_isSome h p).2 ⟨h1, h2⟩
    rw [hl] at this
    exact Bool.noConfusion this
  · rfl

theorem lookup2_tNew (R C : ℕ) (p : Pair) (h1 : p.1 < R) (h2 : p.2 < C) :
    lookup2 (tNew (R, C)).data p = some 0 := by
  unfold lookup2 tNew
  rw [List.get?_eq_getElem?, List.getElem?_replicate]
  simp only [if_pos h1]
  show (List.replicate C (0 : ℚ)).get? p.2 = some 0
  rw [List.get?_eq_getElem?, List.getElem?_replicate]
  simp [h2]

theorem update2_pres {d d' : List (List ℚ)} {R C : ℕ} (h : dWf d R C) {p : Pair} {v : ℚ}
    (hu : update2 d p v = some d') : dWf d' R C := by
  unfold update2 at hu
  rcases hr : d.get? p.1 with _ | row
  · rw [hr] at hu
    exact Option.noConfusion hu
  · rw [hr, Option.some_bind] at hu
    by_cases hb : p.2 < row.length
    · rw [if_pos hb] at hu
      injection hu with hu
      rw [← hu]
      constructor
      · rw [List.length_set]
        exact h.1
      · intro r hrm
        rcases List.mem_or_eq_of_mem_set hrm with hm | hm
        · exact h.2 r hm
        · rw [hm, List.length_set]
          exact h.2 row (List.get?_mem hr)
    · rw [if_neg hb] at hu
      exact Option.noConfusion hu

theorem update2_some {d : List (List ℚ)} {R C : ℕ} (h : dWf d R C) {p : Pair}
    (h1 : p.1 < R) (h2 : p.2 < C) (v : ℚ) :
    ∃ d', update2 d p v = some d' ∧ dWf d' R C ∧
      ∀ q, lookup2 d' q = if q = p then some v else lookup2 d q := by
  have hp1 : p.1 < d.length := by rw [h.1]; exact h1
  rcases hrow : d.get? p.1 with _ | row
  · exact absurd (List.get?_eq_none.1 hrow) (by omega)
  · have hrc : row.length = C := h.2 row (List.get?_mem hrow)
    have hb : p.2 < row.length := by rw [hrc]; exact h2
    have hu : update2 d p v = some (d.set p.1 (row.set p.2 v)) := by
      unfold update2
      rw [hrow, Option.some_bind, if_pos hb]
    refine ⟨d.set p.1 (row.set p.2 v), hu, update2_pres h hu, fun q => ?_⟩
    by_cases hq : q = p
    · rw [if_pos hq, hq]
      unfold lookup2
      rw [List.get?_set_eq_of_lt (row.set p.2 v) hp1]
      show (row.set p.2 v).get? p.2 = some v
      rw [List.get?_set_eq_of_lt v hb]
    · rw [if_neg hq]
      unfold lookup2
      by_cases hq1 : q.1 = p.1
      · have hq2 : q.2 ≠ p.2 := by
          intro hc
          apply hq
          rcases q with ⟨a, b⟩
          rcases p with ⟨a2, b2⟩
          simp only [Prod.mk.injEq]
          exact ⟨hq1, hc⟩
        rw [hq1, List.get?_set_eq_of_lt (row.set p.2 v) hp1, hrow]
        show (row.set p.2 v).get? q.2 = row.get? q.2
        rw [List.get?_set_ne v row (fun hc => hq2 hc.symm)]
      · rw [List.get?_set_ne (row.set p.2 v) d (fun hc => hq1 hc.symm)]

theorem foldlM_congr {α β : Type} (f g : β → α → Option β) (l : List α)
    (h : ∀ x ∈ l, ∀ d, f d x = g d x) (b0 : β) :
    l.foldlM (m := Option) f b0 = l.foldlM (m := Option) g b0 := by
  induction l generalizing b0 with
  | nil => rfl
  | cons a rest ih =>
    rw [List.foldlM_cons, List.foldlM_cons, h a (List.mem_cons_self a rest) b0]
    rcases g b0 a with _ | b1
    · rfl
    · exact ih (fun x hx d => h x (List.mem_cons.2 (Or.inr hx)) d) b1

theorem foldlM_map {α β γ : Type} (g : α → γ) (f : β → γ → Option β) (l : List α)
    (b0 : β) :
    (l.map g).foldlM (m := Option) f b0 = l.foldlM (m := Option) (fun b a => f b (g a)) b0 := by
  induction l generalizing b0 with
  | nil => rfl
  | cons a rest ih =>
    rw [List.map_cons, List.foldlM_cons, List.foldlM_cons]
    rcases f b0 (g a) with _ | b1
    · rfl
    · exact ih b1

theorem write_foldl (R C : ℕ) (steps : List Entry) (d0 : List (List ℚ)) (h0 : dWf d0 R C)
    (hsteps : ∀ s ∈ steps, s.1.1 < R ∧ s.1.2 < C) :
    ∃ d', steps.foldlM (m := Option) (fun d s => update2 d s.1 s.2) d0 = some d' ∧
      dWf d' R C ∧
      ∀ q, lookup2 d' q =
        match lastW steps q with
        | some v => some v
        | none => lookup2 d0 q := by
  induction steps generalizing d0 with
  | nil =>
    refine ⟨d0, rfl, h0, fun q => ?_⟩
    simp [lastW]
  | cons s rest ih =>
    rcases update2_some h0 (hsteps s (List.mem_cons_self s rest)).1
      (hsteps s (List.mem_cons_self s rest)).2 s.2 with ⟨d1, hu, hw1, hl1⟩
    rcases ih d1 hw1 (fun x hx => hsteps x (List.mem_cons.2 (Or.inr hx))) with
      ⟨d', hfold, hw', hl'⟩
    refine ⟨d', ?_, hw', fun q => ?_⟩
    · rw [List.foldlM_cons, hu]
      simpa using hfold
    · rw [hl' q, lastW]
      rcases hr : lastW rest q with _ | v
      · rw [hl1 q]
        by_cases hq : q = s.1
        · simp only [if_pos hq, if_pos hq.symm]
        · simp only [if_neg hq, if_neg (fun hc : s.1 = q => hq hc.symm)]
      · rfl

theorem dense_accum (R C : ℕ) (steps : List Entry) (d0 : List (List ℚ)) (h0 : dWf d0 R C)
    (hsteps : ∀ s ∈ steps, s.1.1 < R ∧ s.1.2 < C) :
    ∃ d', steps.foldlM (m := Option)
        (fun d s => (lookup2 d s.1).bind (fun cur => update2 d s.1 (cur + s.2))) d0
        = some d' ∧ dWf d' R C ∧
      ∀ q, lookup2 d' q = (lookup2 d0 q).map (fun x => x + contribList q steps) := by
  induction steps generalizing d0 with
  | nil =>
    refine ⟨d0, rfl, h0, fun q => ?_⟩
    rcases hl : lookup2 d0 q with _ | v
    · rfl
    · simp [contribList_nil]
  | cons s rest ih =>
    have hs1 := (hsteps s (List.mem_cons_self s rest)).1
    have hs2 := (hsteps s (List.mem_cons_self s rest)).2
    have hcur : lookup2 d0 s.1 = some ((lookup2 d0 s.1).getD 0) := lookup2_eq_some h0 s.1 hs1 hs2
    rcases update2_some h0 hs1 hs2 (((lookup2 d0 s.1).getD 0) + s.2) with ⟨d1, hu, hw1, hl1⟩
    rcases ih d1 hw1 (fun x hx => hsteps x (List.mem_cons.2 (Or.inr hx))) with
      ⟨d', hfold, hw', hl'⟩
    refine ⟨d', ?_, hw', fun q => ?_⟩
    · rw [List.foldlM_cons]
      have hstep1 : (lookup2 d0 s.1).bind (fun cur => update2 d0 s.1 (cur + s.2))
          = some d1 := by
        rw [hcur, Option.some_bind]
        exact hu
      rw [hstep1]
      simpa using hfold
    · rw [hl' q, hl1 q, contribList_cons]
      by_cases hq : q = s.1
      · rw [if_pos hq, if_pos (hq ▸ rfl : s.1 = q), hq, hcur]
        show some ((lookup2 d0 s.1).getD 0 + s.2 + contribList s.1 rest)
          = Option.map (fun x => x + (s.2 + contribList s.1 rest))
              (some ((lookup2 d0 s.1).getD 0))
        rw [Option.map_some']
        rw [add_assoc]
      · rw [if_neg hq, if_neg (fun hc => hq hc.symm), zero_add]

theorem mem_cellList (size : Pair) (p : Pair) :
    p ∈ cellList size ↔ (p.1 < size.1 ∧ p.2 < size.2) := by
  unfold cellList
  rcases p with ⟨i, j⟩
  simp [List.mem_flatMap, List.mem_map, List.mem_range]

theorem mem_tripleList (n : Pair) (t : ℕ × ℕ × ℕ) :
    t ∈ tripleList n ↔ (t.1 < n.1 ∧ t.2.1 < n.2 ∧ t.2.2 < n.2) := by
  unfold tripleList
  rcases t with ⟨i, k, j⟩
  simp only [List.mem_flatMap, List.mem_map, List.mem_range, Prod.mk.injEq]
  constructor
  · rintro ⟨a, ha, b, hb, c, hc, h1, h2, h3⟩
    exact ⟨h1 ▸ ha, h2 ▸ hb, h3 ▸ hc⟩
  · rintro ⟨h1, h2, h3⟩
    exact ⟨i, h1, k, h2, j, h3, rfl, rfl, rfl⟩

theorem lastW_map_eq_none (L : List Pair) (h : Pair → Pair) (f : Pair → ℚ) (q : Pair)
    (hq : ∀ p ∈ L, h p ≠ q) : lastW (L.map (fun p => (h p, f p))) q = none := by
  induction L with
  | nil => rfl
  | cons p rest ih =>
    rw [List.map_cons, lastW, ih (fun x hx => hq x (List.mem_cons.2 (Or.inr hx)))]
    rw [if_neg (hq p (List.mem_cons_self p rest))]

theorem lastW_map_eq_some (L : List Pair) (h : Pair → Pair) (f : Pair → ℚ) (q p0 : Pair)
    (hp0 : p0 ∈ L) (hq : h p0 = q) (huniq : ∀ p ∈ L, h p = q → p = p0) :
    lastW (L.map (fun p => (h p, f p))) q = some (f p0) := by
  induction L with
  | nil => exact absurd hp0 (List.not_mem_nil p0)
  | cons p rest ih =>
    rw [List.map_cons, lastW]
    by_cases hm : p0 ∈ rest
    · rw [ih hm (fun x hx hhx => huniq x (List.mem_cons.2 (Or.inr hx)) hhx)]
    · have hp : p = p0 := by
        rcases List.mem_cons.1 hp0 with h1 | h1
        · exact h1.symm
        · exact absurd h1 hm
      have hrest : ∀ x ∈ rest, h x ≠ q := by
        intro x hx hcx
        rw [huniq x (List.mem_cons.2 (Or.inr hx)) hcx] at hx
        exact hm hx
      rw [lastW_map_eq_none rest h f q hrest, hp, if_pos hq]

theorem sum_range_if (n t : ℕ) (f : ℕ → ℚ) (ht : t < n) :
    ((List.range n).map (fun x => if x = t then f x else 0)).sum = f t := by
  rw [← range_sum_eq, Finset.sum_ite_eq' (Finset.range n) t f]
  simp [Finset.mem_range.2 ht]

theorem contrib_tripleList (r c : ℕ) (f : ℕ × ℕ × ℕ → ℚ) (i j : ℕ) (hi : i < r)
    (hj : j < c) :
    contribList (i, j) ((tripleList (r, c)).map (fun t => ((t.1, t.2.2), f t))) =
      ((List.range c).map (fun k => f (i, k, j))).sum := by
  unfold contribList
  rw [List.map_map]
  have hfun : ((fun s : Entry => if s.1 = (i, j) then s.2 else 0) ∘
      fun t : ℕ × ℕ × ℕ => ((t.1, t.2.2), f t))
      = fun t : ℕ × ℕ × ℕ => if (t.1, t.2.2) = (i, j) then f t else 0 := rfl
  rw [hfun]
  unfold tripleList
  rw [sum_map_flatMap]
  have hinner : ∀ i' ∈ List.range r,
      (((List.range c).flatMap (fun k => (List.range c).map (fun j' => (i', k, j')))).map
        (fun t : ℕ × ℕ × ℕ => if (t.1, t.2.2) = (i, j) then f t else 0)).sum
      = if i' = i then ((List.range c).map (fun k => f (i', k, j))).sum else 0 := by
    intro i' _
    rw [sum_map_flatMap]
    have hk : ∀ k ∈ List.range c,
        (((List.range c).map (fun j' => (i', k, j'))).map
          (fun t : ℕ × ℕ × ℕ => if (t.1, t.2.2) = (i, j) then f t else 0)).sum
        = if i' = i then f (i', k, j) else 0 := by
      intro k _
      rw [List.map_map]
      have hfun2 : ((fun t : ℕ × ℕ × ℕ => if (t.1, t.2.2) = (i, j) then f t else 0) ∘
          fun j' => (i', k, j'))
          = fun j' => if j' = j then (if i' = i then f (i', k, j') else 0) else 0 := by
        funext j'
        show (if (i', j') = (i, j) then f (i', k, j') else 0) = _
        by_cases hj' : j' = j
        · by_cases hi' : i' = i
          · rw [if_pos (by rw [hi', hj']), if_pos hj', if_pos hi']
          · rw [if_neg (fun hc : (i', j') = (i, j) => hi' (congrArg Prod.fst hc)),
              if_pos hj', if_neg hi']
        · rw [if_neg (fun hc : (i', j') = (i, j) => hj' (congrArg Prod.snd hc)),
            if_neg hj']
      rw [hfun2, sum_range_if c j _ hj]
    rw [List.map_congr_left hk]
    by_cases hi' : i' = i
    · simp only [if_pos hi']
    · simp only [if_neg hi']
      simp
  rw [List.map_congr_left hinner]
  have hcollapse : (fun i' => if i' = i then ((List.range c).map (fun k => f (i', k, j))).sum
      else 0) = fun i' => if i' = i then ((List.range c).map (fun k => f (i, k, j))).sum
      else 0 := by
    funext i'
    by_cases hi' : i' = i
    · rw [if_pos hi', if_pos hi', hi']
    · rw [if_neg hi', if_neg hi']
  rw [hcollapse, sum_range_if r i _ hi]

/-! ## Dense operation characterizations -/

theorem tFromInfo_correct (info : MatrixInfo) (R C : ℕ) (hsize : info.size = (R, C))
    (hin : ∀ e ∈ info.values, e.1.1 < R ∧ e.1.2 < C) :
    ∃ t, tFromInfo info = some t ∧ t.size = (R, C) ∧ dWf t.data R C ∧
      ∀ p, p.1 < R → p.2 < C → lookup2 t.data p = some (infoGetD info p) := by
  rcases write_foldl R C info.values (tNew info.size).data
      (by rw [hsize]; exact tNew_dWf R C) hin with ⟨d', hfold, hw', hl'⟩
  refine ⟨⟨info.size, d'⟩, ?_, hsize, hw', fun p h1 h2 => ?_⟩
  · unfold tFromInfo
    rw [hfold]
    rfl
  · rw [hl' p]
    unfold infoGetD
    rcases hlw : lastW info.values p with _ | v
    · rw [hsize]
      exact lookup2_tNew R C p h1 h2
    · rfl

theorem mapM_option_map {α : Type} (L : List α) (g : α → Option ℚ) (f : α → ℚ)
    (h : ∀ x ∈ L, g x = some (f x)) :
    (L.mapM (fun x => (g x).map (fun v => (x, v)))) = some (L.map (fun x => (x, f x))) := by
  induction L with
  | nil => rfl
  | cons a rest ih =>
    rw [List.mapM_cons, h a (List.mem_cons_self a rest)]
    rw [ih (fun x hx => h x (List.mem_cons.2 (Or.inr hx)))]
    rfl

theorem tToInfo_some (m : TableMatrix) (hw : TWf m) :
    ∃ info, tToInfo m = some info ∧ info.size = m.size ∧
      ∀ p, p.1 < m.size.1 → p.2 < m.size.2 → lastW info.values p = some (tcell m p) := by
  have hdw : dWf m.data m.size.1 m.size.2 := (twf_iff m).1 hw
  have hread : ∀ p ∈ cellList m.size, lookup2 m.data p = some (tcell m p) := by
    intro p hp
    rcases (mem_cellList m.size p).1 hp with ⟨h1, h2⟩
    exact lookup2_eq_some hdw p h1 h2
  refine ⟨⟨m.size, (cellList m.size).map (fun p => (p, tcell m p))⟩, ?_, rfl, ?_⟩
  · unfold tToInfo
    rw [mapM_option_map (cellList m.size) (fun p => lookup2 m.data p) (fun p => tcell m p)
      hread]
    rfl
  · intro p h1 h2
    have hpm : p ∈ cellList m.size := (mem_cellList m.size p).2 ⟨h1, h2⟩
    exact lastW_map_eq_some (cellList m.size) id (fun p => tcell m p) p p hpm rfl
      (fun x _ hx => hx)

theorem tTransposed_correct (m : TableMatrix) (hw : TWf m) :
    ∃ t, tTransposed m = some t ∧ t.size = (m.size.2, m.size.1) ∧
      dWf t.data m.size.2 m.size.1 ∧
      ∀ q, lookup2 t.data q =
        if q.1 < m.size.2 ∧ q.2 < m.size.1 then lookup2 m.data (q.2, q.1) else none := by
  have hdw : dWf m.data m.size.1 m.size.2 := (twf_iff m).1 hw
  have hread : ∀ p ∈ cellList m.size, lookup2 m.data p = some (tcell m p) := by
    intro p hp
    rcases (mem_cellList m.size p).1 hp with ⟨h1, h2⟩
    exact lookup2_eq_some hdw p h1 h2
  have hcong : (cellList m.size).foldlM (m := Option) (fun d p =>
      (lookup2 m.data p).bind (fun v => update2 d (p.2, p.1) v))
      (tNew (m.size.2, m.size.1)).data
      = (cellList m.size).foldlM (m := Option) (fun d p =>
        update2 d (p.2, p.1) (tcell m p)) (tNew (m.size.2, m.size.1)).data := by
    apply foldlM_congr
    intro p hp d
    rw [hread p hp, Option.some_bind]
  have hmap : (cellList m.size).foldlM (m := Option) (fun d p =>
      update2 d (p.2, p.1) (tcell m p)) (tNew (m.size.2, m.size.1)).data
      = ((cellList m.size).map (fun p => ((p.2, p.1), tcell m p))).foldlM (m := Option)
        (fun d s => update2 d s.1 s.2) (tNew (m.size.2, m.size.1)).data := by
    rw [foldlM_map]
  have hb : ∀ s ∈ (cellList m.size).map (fun p => ((p.2, p.1), tcell m p)),
      s.1.1 < m.size.2 ∧ s.1.2 < m.size.1 := by
    intro s hs
    rcases List.mem_map.1 hs with ⟨p, hp, hps⟩
    rcases (mem_cellList m.size p).1 hp with ⟨h1, h2⟩
    rw [← hps]
    exact ⟨h2, h1⟩
  rcases write_foldl m.size.2 m.size.1 ((cellList m.size).map (fun p => ((p.2, p.1), tcell m p)))
      (tNew (m.size.2, m.size.1)).data (tNew_dWf m.size.2 m.size.1) hb with
      ⟨d', hfold, hw', hl'⟩
  refine ⟨⟨(m.size.2, m.size.1), d'⟩, ?_, rfl, hw', fun q => ?_⟩
  · unfold tTransposed
    rw [hcong, hmap, hfold]
    rfl
  · rw [hl' q]
    have hsteps : ((cellList m.size).map (fun p => ((p.2, p.1), tcell m p)))
        = (cellList m.size).map (fun p => ((fun x : Pair => (x.2, x.1)) p,
          (fun x => tcell m x) p)) := rfl
    by_cases hq : q.1 < m.size.2 ∧ q.2 < m.size.1
    · have hpm : (q.2, q.1) ∈ cellList m.size :=
        (mem_cellList m.size (q.2, q.1)).2 ⟨hq.2, hq.1⟩
    
      rw [hsteps, lastW_map_eq_some (cellList m.size) (fun x : Pair => (x.2, x.1))
        (fun x => tcell m x) q (q.2, q.1) hpm rfl ?huniq]
      case huniq =>
        intro x _ hx
        rcases x with ⟨x1, x2⟩
        rcases q with ⟨q1, q2⟩
        simp only [Prod.mk.injEq] at hx ⊢
        exact ⟨hx.2, hx.1⟩
      rw [if_pos hq]
      exact (hread (q.2, q.1) hpm).symm
    · rw [hsteps, lastW_map_eq_none (cellList m.size) (fun x : Pair => (x.2, x.1))
        (fun x => tcell m x) q ?hnone]
      case hnone =>
        intro p hp hc
        rcases (mem_cellList m.size p).1 hp with ⟨h1, h2⟩
        apply hq
        rw [← hc]
        exact ⟨h2, h1⟩
      rw [if_neg hq]
      exact lookup2_eq_none (tNew_dWf m.size.2 m.size.1) q hq

theorem foldlM_none_of_bad {α β : Type} (P : β → Prop) (f : β → α → Option β) (l : List α)
    (b0 : β) (h0 : P b0) (hpres : ∀ b x b', P b → f b x = some b' → P b')
    (hbad : ∃ x ∈ l, ∀ b, P b → f b x = none) : l.foldlM (m := Option) f b0 = none := by
  induction l generalizing b0 with
  | nil =>
    rcases hbad with ⟨x, hx, _⟩
    exact absurd hx (List.not_mem_nil x)
  | cons a rest ih =>
    rw [List.foldlM_cons]
    rcases hbad with ⟨x, hx, hxf⟩
    rcases List.mem_cons.1 hx with hxa | hxr
    · rw [← hxa, hxf b0 h0]
      rfl
    · rcases hf : f b0 a with _ | b1
      · rfl
      · show List.foldlM (m := Option) f b1 rest = none
        exact ih b1 (hpres b0 a b1 h0 hf) ⟨x, hxr, hxf⟩

theorem tMul_some (a b : TableMatrix) (r c : ℕ) (hsa : a.size = (r, c))
    (hsb : b.size = (r, c)) (hwa : TWf a) (hwb : TWf b) (hcr : c ≤ r) :
    ∃ t, tMul a b = some t ∧ t.size = (r, c) ∧ dWf t.data r c ∧
      ∀ i j, i < r → j < c → lookup2 t.data (i, j)
        = some (∑ k ∈ Finset.range c, tcell a (i, k) * tcell b (k, j)) := by
  have hda : dWf a.data r c := by
    have h := (twf_iff a).1 hwa
    rw [hsa] at h
    exact h
  have hdb : dWf b.data r c := by
    have h := (twf_iff b).1 hwb
    rw [hsb] at h
    exact h
  have hsz : a.size = b.size := by rw [hsa, hsb]
  have hcongr : (tripleList (r, c)).foldlM (m := Option) (fun d t =>
      (lookup2 a.data (t.1, t.2.1)).bind (fun aik =>
        (lookup2 b.data (t.2.1, t.2.2)).bind (fun bkj =>
          (lookup2 d (t.1, t.2.2)).bind (fun cur =>
            update2 d (t.1, t.2.2) (cur + aik * bkj))))) (tNew (r, c)).data
      = (tripleList (r, c)).foldlM (m := Option) (fun d t =>
        (lookup2 d (t.1, t.2.2)).bind (fun cur =>
          update2 d (t.1, t.2.2) (cur + tcell a (t.1, t.2.1) * tcell b (t.2.1, t.2.2))))
        (tNew (r, c)).data := by
    apply foldlM_congr
    intro t ht d
    rcases (mem_tripleList (r, c) t).1 ht with ⟨h1, h2, h3⟩
    have h1n : t.1 < r := h1
    have h2n : t.2.1 < c := h2
    have h3n : t.2.2 < c := h3
    rw [lookup2_eq_some hda (t.1, t.2.1) h1n h2n,
      lookup2_eq_some hdb (t.2.1, t.2.2) (by omega) h3n, Option.some_bind, Option.some_bind]
    rfl
  have hmap : (tripleList (r, c)).foldlM (m := Option) (fun d t =>
      (lookup2 d (t.1, t.2.2)).bind (fun cur =>
        update2 d (t.1, t.2.2) (cur + tcell a (t.1, t.2.1) * tcell b (t.2.1, t.2.2))))
      (tNew (r, c)).data
      = ((tripleList (r, c)).map (fun t =>
          ((t.1, t.2.2), tcell a (t.1, t.2.1) * tcell b (t.2.1, t.2.2)))).foldlM (m := Option)
        (fun d s => (lookup2 d s.1).bind (fun cur => update2 d s.1 (cur + s.2)))
        (tNew (r, c)).data := by
    rw [foldlM_map]
  have hbounds : ∀ s ∈ (tripleList (r, c)).map (fun t =>
      ((t.1, t.2.2), tcell a (t.1, t.2.1) * tcell b (t.2.1, t.2.2))),
      s.1.1 < r ∧ s.1.2 < c := by
    intro s hs
    rcases List.mem_map.1 hs with ⟨t, ht, hts⟩
    rcases (mem_tripleList (r, c) t).1 ht with ⟨h1, h2, h3⟩
    rw [← hts]
    exact ⟨h1, h3⟩
  rcases dense_accum r c ((tripleList (r, c)).map (fun t =>
      ((t.1, t.2.2), tcell a (t.1, t.2.1) * tcell b (t.2.1, t.2.2))))
      (tNew (r, c)).data (tNew_dWf r c) hbounds with ⟨d', hfold, hw', hl'⟩
  refine ⟨⟨(r, c), d'⟩, ?_, rfl, hw', fun i j hi hj => ?_⟩
  · unfold tMul
    rw [if_pos hsz, hsa, hcongr, hmap, hfold]
    rfl
  · rw [hl' (i, j), lookup2_tNew r c (i, j) hi hj]
    rw [Option.map_some']
    rw [contrib_tripleList r c
      (fun t => tcell a (t.1, t.2.1) * tcell b (t.2.1, t.2.2)) i j hi hj]
    rw [zero_add, ← range_sum_eq]

theorem tMul_none_size (a b : TableMatrix) (h : ¬ a.size = b.size) : tMul a b = none := by
  unfold tMul
  rw [if_neg h]

theorem tMul_none_oob (a b : TableMatrix) (r c : ℕ) (hsa : a.size = (r, c))
    (hsb : b.size = (r, c)) (hwa : TWf a) (hwb : TWf b) (hr : 0 < r) (hrc : r < c) :
    tMul a b = none := by
  have hda : dWf a.data r c := by
    have h := (twf_iff a).1 hwa
    rw [hsa] at h
    exact h
  have hdb : dWf b.data r c := by
    have h := (twf_iff b).1 hwb
    rw [hsb] at h
    exact h
  have hsz : a.size = b.size := by rw [hsa, hsb]
  unfold tMul
  rw [if_pos hsz, hsa]
  rw [show ((tripleList (r, c)).foldlM (m := Option) (fun d t =>
      (lookup2 a.data (t.1, t.2.1)).bind (fun aik =>
        (lookup2 b.data (t.2.1, t.2.2)).bind (fun bkj =>
          (lookup2 d (t.1, t.2.2)).bind (fun cur =>
            update2 d (t.1, t.2.2) (cur + aik * bkj))))) (tNew (r, c)).data) = none
    from ?_]
  · rfl
  apply foldlM_none_of_bad (fun d => dWf d r c)
  · exact tNew_dWf r c
  · intro d t d' hP hstep
    rcases hla : lookup2 a.data (t.1, t.2.1) with _ | aik
    · rw [hla] at hstep
      exact Option.noConfusion hstep
    · rw [hla, Option.some_bind] at hstep
      rcases hlb : lookup2 b.data (t.2.1, t.2.2) with _ | bkj
      · rw [hlb] at hstep
        exact Option.noConfusion hstep
      · rw [hlb, Option.some_bind] at hstep
        rcases hlc : lookup2 d (t.1, t.2.2) with _ | cur
        · rw [hlc] at hstep
          exact Option.noConfusion hstep
        · rw [hlc, Option.some_bind] at hstep
          exact update2_pres hP hstep
  · refine ⟨(0, r, 0), (mem_tripleList (r, c) (0, r, 0)).2
      ⟨hr, hrc, (show (0 : ℕ) < c by omega)⟩, fun d _ => ?_⟩
    rw [lookup2_eq_some hda (0, r) hr hrc, Option.some_bind]
    rw [show lookup2 b.data (r, 0) = none from
      lookup2_eq_none hdb (r, 0) (fun hc => by omega)]
    rfl

theorem tMul_rows_zero (a b : TableMatrix) (c : ℕ) (hsa : a.size = (0, c))
    (hsb : b.size = (0, c)) : tMul a b = some ⟨(0, c), (tNew (0, c)).data⟩ := by
  have hsz : a.size = b.size := by rw [hsa, hsb]
  unfold tMul
  rw [if_pos hsz, hsa]
  rw [show tripleList (0, c) = [] from by simp [tripleList]]
  rfl

/-! ## Assembly lemmas -/

theorem madd_size (ins : List Entry → Pair → ℚ → List Entry) (a b : MMatrix) :
    (madd ins a b).size = a.size := by
  unfold madd
  have h := foldl_preserve (fun c : MMatrix => c.size = a.size)
    (fun c e => mset ins c e.1 (mget a e.1 + e.2))
    (fun c e hc => by show (mset ins c e.1 (mget a e.1 + e.2)).size = a.size; rw [mset_size]; exact hc) (mentries b)
    ⟨a.size, a.store, a.transposed⟩ rfl
  exact h

theorem mem_keys_mentries (m : MMatrix) (p : Pair) :
    p ∈ (mentries m).map Prod.fst ↔
      (assocGet m.store (physKey m.transposed p)).isSome = true := by
  rw [← assocGet_isSome_iff, assocGet_mentries]

theorem infoGetD_mtoInfo {m : MMatrix} (h : KeysNodup m.store) (p : Pair) :
    infoGetD (mtoInfo m) p = mget m p := by
  unfold infoGetD mtoInfo
  show (lastW (mentries m) p).getD 0 = _
  rw [lastW_of_nodup (keysNodup_mentries h) p, assocGet_mentries]
  rfl

theorem mentries_bound {ins : List Entry → Pair → ℚ → List Entry} {Inv : List Entry → Prop}
    (L : InsOk ins Inv) (info : MatrixInfo) (n : ℕ)
    (hin : ∀ e ∈ info.values, e.1.1 < n ∧ e.1.2 < n) :
    ∀ e ∈ mentries (mfromInfo ins info), e.1.1 < n ∧ e.1.2 < n := by
  intro e he
  rw [mentries_flag_false rfl] at he
  have hk : e.1 ∈ info.values.map Prod.fst := mfromInfo_keys L info e he
  rcases List.mem_map.1 hk with ⟨ev, hev, hevk⟩
  rw [← hevk]
  exact hin ev hev

/-- One sparse engine applied to two snapshots: the product exists and its
snapshot reads the exact product of the snapshot cells. -/
theorem sparse_mul_cell {ins : List Entry → Pair → ℚ → List Entry} {Inv : List Entry → Prop}
    (L : InsOk ins Inv) {atv : List (ℕ × List Entry) → ℕ → Entry → List (ℕ × List Entry)}
    {AInv : List (ℕ × List Entry) → Prop} (A : AtvOk atv AInv) (n : ℕ)
    (i1 i2 : MatrixInfo) (hs1 : i1.size = (n, n)) (hs2 : i2.size = (n, n))
    (hin1 : ∀ e ∈ i1.values, e.1.1 < n ∧ e.1.2 < n)
    (_hin2 : ∀ e ∈ i2.values, e.1.1 < n ∧ e.1.2 < n) :
    ∃ m, mmul ins atv (mfromInfo ins i1) (mfromInfo ins i2) = some m ∧
      KeysNodup m.store ∧
      ∀ i j, infoGetD (mtoInfo m) (i, j)
        = ∑ k ∈ Finset.range n, infoGetD i1 (i, k) * infoGetD i2 (k, j) := by
  have hcompat : (mfromInfo ins i1).size.2 = (mfromInfo ins i2).size.1 := by
    show i1.size.2 = i2.size.1
    rw [hs1, hs2]
  rcases mmul_correct_param L A (mfromInfo ins i1) (mfromInfo ins i2)
      (mfromInfo_inv L i1) (mfromInfo_inv L i2) hcompat with
      ⟨m, hm, hsize, hflag, hinv, hget⟩
  refine ⟨m, hm, L.nodup _ hinv, fun i j => ?_⟩
  rw [infoGetD_mtoInfo (L.nodup _ hinv) (i, j)]
  rw [hget n (fun e he => (mentries_bound L i1 n hin1 e he).2) i j]
  apply Finset.sum_congr rfl
  intro k _
  rw [mget_mfromInfo L i1 (i, k), mget_mfromInfo L i2 (k, j)]

/-- The dense engine applied to two snapshots: construction, multiplication
and snapshot extraction succeed and the snapshot reads the exact product of
the snapshot cells. -/
theorem dense_mul_cell (n : ℕ) (i1 i2 : MatrixInfo) (hs1 : i1.size = (n, n))
    (hs2 : i2.size = (n, n)) (hin1 : ∀ e ∈ i1.values, e.1.1 < n ∧ e.1.2 < n)
    (hin2 : ∀ e ∈ i2.values, e.1.1 < n ∧ e.1.2 < n) :
    ∃ da db dm dsnap, tFromInfo i1 = some da ∧ tFromInfo i2 = some db ∧
      tMul da db = some dm ∧ tToInfo dm = some dsnap ∧
      ∀ i j, i < n → j < n → infoGetD dsnap (i, j)
        = ∑ k ∈ Finset.range n, infoGetD i1 (i, k) * infoGetD i2 (k, j) := by
  rcases tFromInfo_correct i1 n n hs1 hin1 with ⟨da, hda, hdas, hdaw, hdal⟩
  rcases tFromInfo_correct i2 n n hs2 hin2 with ⟨db, hdb, hdbs, hdbw, hdbl⟩
  have hwa : TWf da := by
    rw [twf_iff, hdas]
    exact hdaw
  have hwb : TWf db := by
    rw [twf_iff, hdbs]
    exact hdbw
  rcases tMul_some da db n n hdas hdbs hwa hwb (le_refl n) with ⟨dm, hdm, hdms, hdmw, hdml⟩
  have hwm : TWf dm := by
    rw [twf_iff, hdms]
    exact hdmw
  rcases tToInfo_some dm hwm with ⟨dsnap, hsnap, hsnaps, hsnapl⟩
  refine ⟨da, db, dm, dsnap, hda, hdb, hdm, hsnap, fun i j hi hj => ?_⟩
  have hi2 : i < dm.size.1 := by rw [hdms]; exact hi
  have hj2 : j < dm.size.2 := by rw [hdms]; exact hj
  have h1 : infoGetD dsnap (i, j) = tcell dm (i, j) := by
    unfold infoGetD
    rw [hsnapl (i, j) hi2 hj2]
    rfl
  rw [h1]
  have h2 : tcell dm (i, j) = ∑ k ∈ Finset.range n, tcell da (i, k) * tcell db (k, j) := by
    unfold tcell
    rw [hdml i j hi hj]
    rfl
  rw [h2]
  apply Finset.sum_congr rfl
  intro k hk
  have hkn : k < n := Finset.mem_range.1 hk
  have hta : tcell da (i, k) = infoGetD i1 (i, k) := by
    unfold tcell
    rw [hdal (i, k) hi hkn]
    rfl
  have htb : tcell db (k, j) = infoGetD i2 (k, j) := by
    unfold tcell
    rw [hdbl (k, j) hkn hj]
    rfl
  rw [hta, htb]

theorem sadd_fold_none (b : SimpleMatrix) (L : List Entry) (c0 : SimpleMatrix) (p : Pair)
    (hp : p ∉ L.map Prod.fst) (h0 : assocGet c0.values p = none) :
    assocGet (L.foldl (fun c e => sset c e.1 (sget b e.1 + e.2)) c0).values p = none := by
  induction L generalizing c0 with
  | nil => exact h0
  | cons e rest ih =>
    have hep : e.1 ≠ p := by
      intro hc
      exact hp (List.mem_map.2 ⟨e, List.mem_cons_self e rest, hc⟩)
    have hprest : p ∉ rest.map Prod.fst := by
      intro hc
      rcases List.mem_map.1 hc with ⟨f, hf, hfp⟩
      exact hp (List.mem_map.2 ⟨f, List.mem_cons.2 (Or.inr hf), hfp⟩)
    rw [List.foldl_cons]
    apply ih (sset c0 e.1 (sget b e.1 + e.2)) hprest
    unfold sset
    by_cases hv : sget b e.1 + e.2 = 0
    · rw [if_pos hv]
      show assocGet (assocRemove c0.values e.1) p = none
      rw [assocGet_remove_ne c0.values e.1 p (fun hc => hep hc.symm)]
      exact h0
    · rw [if_neg hv]
      show assocGet (hashIns c0.values e.1 (sget b e.1 + e.2)) p = none
      rw [hash_get_ins c0.values e.1 (sget b e.1 + e.2) p,
        if_neg (fun hc => hep hc.symm)]
      exact h0

/-! ## Concrete example snapshots -/

/-- The 2 by 2 snapshot [[1,2],[3,4]] named by the spec's cross-check property. -/
def exA : MatrixInfo := ⟨(2, 2), [((0, 0), 1), ((0, 1), 2), ((1, 0), 3), ((1, 1), 4)]⟩

/-- The 2 by 2 identity snapshot. -/
def exI : MatrixInfo := ⟨(2, 2), [((0, 0), 1), ((1, 1), 1)]⟩

/-! ## Claims -/

/-- C1: for shape-compatible operands, `MapMatrix::mul` over either store
returns a matrix of dimensions `(a.rows, b.columns)` in which every cell
`(i, j)` reads as the standard product value `∑ k, a.get (i, k) * b.get (k, j)`
(any `N` bounding the stored column indices of `a` and row indices of `b`
covers every contributing `k`). -/
theorem claim_c1_sparse_mul_product :
    (∀ a b : MMatrix, MWfH a → MWfH b → a.size.2 = b.size.1 →
      ∃ c, mmul hashIns hashAtv a b = some c ∧ c.size = (a.size.1, b.size.2) ∧
        ∀ N, (∀ e ∈ mentries a, e.1.2 < N) → (∀ e ∈ mentries b, e.1.1 < N) →
          ∀ i j, mget c (i, j) = ∑ k ∈ Finset.range N, mget a (i, k) * mget b (k, j)) ∧
    (∀ a b : MMatrix, MWfT a → MWfT b → a.size.2 = b.size.1 →
      ∃ c, mmul (treeIns pairLt) (treeAtv natLt) a b = some c ∧
        c.size = (a.size.1, b.size.2) ∧
        ∀ N, (∀ e ∈ mentries a, e.1.2 < N) → (∀ e ∈ mentries b, e.1.1 < N) →
          ∀ i j, mget c (i, j) = ∑ k ∈ Finset.range N, mget a (i, k) * mget b (k, j)) := by
  constructor
  · intro a b ha hb hc
    rcases mmul_correct_param hashInsOk hashAtvOk a b ha.1 hb.1 hc with
      ⟨c, h1, h2, _, _, h5⟩
    exact ⟨c, h1, h2, fun N haN _ i j => h5 N haN i j⟩
  · intro a b ha hb hc
    rcases mmul_correct_param treeInsOk treeAtvOk a b ha.1 hb.1 hc with
      ⟨c, h1, h2, _, _, h5⟩
    exact ⟨c, h1, h2, fun N haN _ i j => h5 N haN i j⟩

/-- Witness for C1 at the spec's example: [[1,2],[3,4]] times the identity. -/
theorem claim_c1_witness :
    MWfH (mfromInfo hashIns exA) ∧ MWfH (mfromInfo hashIns exI) ∧
    (mfromInfo hashIns exA).size.2 = (mfromInfo hashIns exI).size.1 ∧
    (∃ c, mmul hashIns hashAtv (mfromInfo hashIns exA) (mfromInfo hashIns exI) = some c ∧
      c.size = ((mfromInfo hashIns exA).size.1, (mfromInfo hashIns exI).size.2) ∧
      ∀ N, (∀ e ∈ mentries (mfromInfo hashIns exA), e.1.2 < N) →
        (∀ e ∈ mentries (mfromInfo hashIns exI), e.1.1 < N) →
        ∀ i j, mget c (i, j) = ∑ k ∈ Finset.range N,
          mget (mfromInfo hashIns exA) (i, k) * mget (mfromInfo hashIns exI) (k, j)) :=
  ⟨by decide, by decide, by decide,
    claim_c1_sparse_mul_product.1 (mfromInfo hashIns exA) (mfromInfo hashIns exI)
      (by decide) (by decide) (by decide)⟩

/-- C4 (failing evaluation): scalar multiplication by `0.0` keeps every entry
in the backing store with value exactly `0.0`, and `from_info` materializes an
explicit `0.0` entry unfiltered; both contradict the zero-absence invariant. -/
theorem claim_c4_zero_entry_materialized :
    (mmuls (mfromInfo hashIns ⟨(1, 1), [((0, 0), 1)]⟩) 0).store = [((0, 0), 0)] ∧
    (mfromInfo hashIns ⟨(1, 1), [((0, 0), 0)]⟩).store = [((0, 0), 0)] := by
  constructor
  · norm_num [mmuls, mfromInfo, hashIns, assocRemove, List.eraseP,
      -Prod.mk_one_one, -Prod.mk_zero_zero]
  · norm_num [mfromInfo, hashIns, assocRemove, List.eraseP,
      -Prod.mk_one_one, -Prod.mk_zero_zero]

/-- C3 (counterexample): a shape-incompatible sparse multiplication whose
bucket groupings share no index returns a result instead of signaling the
assertion: `a` is 1 by 1 with `a.columns = 1`, `b` is 3 by 3 with
`b.rows = 3`. -/
theorem claim_c3_counterexample :
    (mfromInfo hashIns ⟨(1, 1), [((0, 0), 1)]⟩).size.2
      ≠ (mfromInfo hashIns ⟨(3, 3), [((1, 1), 1)]⟩).size.1 ∧
    (mmul hashIns hashAtv (mfromInfo hashIns ⟨(1, 1), [((0, 0), 1)]⟩)
      (mfromInfo hashIns ⟨(3, 3), [((1, 1), 1)]⟩)).isSome = true := by
  constructor
  · decide
  · decide

/-- C3 (amended): the dense engine rejects any size mismatch for both add and
mul; the sparse mul signals its assertion only when at least one entry pair is
matched by the bucket grouping; the sparse add performs no shape check at all
and always returns a matrix sized by its first operand. -/
theorem claim_c3_dimension_check_amended :
    (∀ a b : TableMatrix, a.size ≠ b.size → tAdd a b = none ∧ tMul a b = none) ∧
    (∀ a b : MMatrix, ¬ a.size.2 = b.size.1 → mulPairs hashAtv a b ≠ [] →
      mmul hashIns hashAtv a b = none) ∧
    (∀ a b : MMatrix, ¬ a.size.2 = b.size.1 → mulPairs (treeAtv natLt) a b ≠ [] →
      mmul (treeIns pairLt) (treeAtv natLt) a b = none) ∧
    (∀ a b : MMatrix, (madd hashIns a b).size = a.size) ∧
    (∀ a b : MMatrix, (madd (treeIns pairLt) a b).size = a.size) := by
  refine ⟨fun a b h => ⟨?_, tMul_none_size a b h⟩, ?_, ?_, ?_, ?_⟩
  · unfold tAdd
    rw [if_neg h]
  · exact fun a b h hne => mmul_eq_none hashIns hashAtv a b h hne
  · exact fun a b h hne => mmul_eq_none (treeIns pairLt) (treeAtv natLt) a b h hne
  · exact fun a b => madd_size hashIns a b
  · exact fun a b => madd_size (treeIns pairLt) a b

/-- Witness for the amended C3 at concrete mismatched shapes. -/
theorem claim_c3_amended_witness :
    ((⟨(1, 2), [[1, 2]]⟩ : TableMatrix).size ≠ (⟨(2, 2), [[1, 0], [0, 1]]⟩ : TableMatrix).size ∧
      tAdd ⟨(1, 2), [[1, 2]]⟩ ⟨(2, 2), [[1, 0], [0, 1]]⟩ = none ∧
      tMul ⟨(1, 2), [[1, 2]]⟩ ⟨(2, 2), [[1, 0], [0, 1]]⟩ = none) ∧
    (¬ (mfromInfo hashIns ⟨(1, 1), [((0, 0), 1)]⟩).size.2
        = (mfromInfo hashIns ⟨(2, 2), [((0, 1), 1)]⟩).size.1 ∧
      mulPairs hashAtv (mfromInfo hashIns ⟨(1, 1), [((0, 0), 1)]⟩)
        (mfromInfo hashIns ⟨(2, 2), [((0, 1), 1)]⟩) ≠ [] ∧
      mmul hashIns hashAtv (mfromInfo hashIns ⟨(1, 1), [((0, 0), 1)]⟩)
        (mfromInfo hashIns ⟨(2, 2), [((0, 1), 1)]⟩) = none) ∧
    (madd hashIns (mfromInfo hashIns ⟨(1, 1), [((0, 0), 1)]⟩)
      (mfromInfo hashIns ⟨(2, 2), [((0, 1), 1)]⟩)).size
      = (mfromInfo hashIns ⟨(1, 1), [((0, 0), 1)]⟩).size :=
  ⟨⟨by decide,
    (claim_c3_dimension_check_amended.1 ⟨(1, 2), [[1, 2]]⟩ ⟨(2, 2), [[1, 0], [0, 1]]⟩
      (by decide)).1,
    (claim_c3_dimension_check_amended.1 ⟨(1, 2), [[1, 2]]⟩ ⟨(2, 2), [[1, 0], [0, 1]]⟩
      (by decide)).2⟩,
   ⟨by decide, by decide,
    claim_c3_dimension_check_amended.2.1 (mfromInfo hashIns ⟨(1, 1), [((0, 0), 1)]⟩)
      (mfromInfo hashIns ⟨(2, 2), [((0, 1), 1)]⟩) (by decide) (by decide)⟩,
   claim_c3_dimension_check_amended.2.2.2.1 (mfromInfo hashIns ⟨(1, 1), [((0, 0), 1)]⟩)
     (mfromInfo hashIns ⟨(2, 2), [((0, 1), 1)]⟩)⟩

/-- C5 (counterexample): adding `[[2]]` and `[[-2]]` cancels: both operands
read non-zero at `(0, 0)` (so `(0, 0)` is in the union of non-zero positions)
yet the result stores no entry at all. -/
theorem claim_c5_counterexample :
    mget (mfromInfo hashIns ⟨(1, 1), [((0, 0), 2)]⟩) (0, 0) ≠ 0 ∧
    mget (mfromInfo hashIns ⟨(1, 1), [((0, 0), -2)]⟩) (0, 0) ≠ 0 ∧
    (madd hashIns (mfromInfo hashIns ⟨(1, 1), [((0, 0), 2)]⟩)
      (mfromInfo hashIns ⟨(1, 1), [((0, 0), -2)]⟩)).store = [] := by
  refine ⟨by decide, by decide, ?_⟩
  norm_num [madd, mentries, mset, mget, mfromInfo, hashIns, assocRemove, assocGet,
    physKey, List.eraseP, -Prod.mk_one_one, -Prod.mk_zero_zero]

/-- C5 (amended): for well-formed equal-sized sparse operands over either
store, `add` returns an `a`-sized matrix reading `a.get p + b.get p` at every
position, and a position is stored exactly when that sum is non-zero — the
union of the operands' non-zero positions minus the positions where the two
contributions cancel. -/
theorem claim_c5_sparse_add_amended :
    (∀ a b : MMatrix, MWfH a → MWfH b → a.size = b.size →
      (madd hashIns a b).size = a.size ∧
      (∀ p, mget (madd hashIns a b) p = mget a p + mget b p) ∧
      (∀ p, p ∈ (mentries (madd hashIns a b)).map Prod.fst ↔ mget a p + mget b p ≠ 0)) ∧
    (∀ a b : MMatrix, MWfT a → MWfT b → a.size = b.size →
      (madd (treeIns pairLt) a b).size = a.size ∧
      (∀ p, mget (madd (treeIns pairLt) a b) p = mget a p + mget b p) ∧
      (∀ p, p ∈ (mentries (madd (treeIns pairLt) a b)).map Prod.fst ↔
        mget a p + mget b p ≠ 0)) := by
  constructor
  · intro a b ha hb _
    rcases madd_correct hashInsOk a b ha.1 hb.1 ha.2 with ⟨h1, h2, h3, h4⟩
    refine ⟨h1, h4, fun p => ?_⟩
    rw [mem_keys_mentries, stored_iff_get h3 p, h4 p]
  · intro a b ha hb _
    rcases madd_correct treeInsOk a b ha.1 hb.1 ha.2 with ⟨h1, h2, h3, h4⟩
    refine ⟨h1, h4, fun p => ?_⟩
    rw [mem_keys_mentries, stored_iff_get h3 p, h4 p]

/-- Witness for the amended C5: [[1,2],[3,4]] plus the identity. -/
theorem claim_c5_amended_witness :
    MWfH (mfromInfo hashIns exA) ∧ MWfH (mfromInfo hashIns exI) ∧
    (mfromInfo hashIns exA).size = (mfromInfo hashIns exI).size ∧
    ((madd hashIns (mfromInfo hashIns exA) (mfromInfo hashIns exI)).size
      = (mfromInfo hashIns exA).size ∧
    (∀ p, mget (madd hashIns (mfromInfo hashIns exA) (mfromInfo hashIns exI)) p
      = mget (mfromInfo hashIns exA) p + mget (mfromInfo hashIns exI) p) ∧
    (∀ p, p ∈ (mentries (madd hashIns (mfromInfo hashIns exA) (mfromInfo hashIns exI))).map
        Prod.fst ↔ mget (mfromInfo hashIns exA) p + mget (mfromInfo hashIns exI) p ≠ 0)) :=
  ⟨by decide, by decide, by decide,
    claim_c5_sparse_add_amended.1 (mfromInfo hashIns exA) (mfromInfo hashIns exI)
      (by decide) (by decide) (by decide)⟩

/-- C6: transposing twice is the identity.  For the sparse engine this is a
structural equality — the store is untouched and the flag flips twice — and
for the dense engine both transposes succeed on a well-formed matrix and the
result has the same dimensions and the same reading at every position. -/
theorem claim_c6_transpose_involution :
    (∀ m : MMatrix, mtransposed (mtransposed m) = m) ∧
    (∀ t : TableMatrix, TWf t → ∃ t1 t2, tTransposed t = some t1 ∧
      tTransposed t1 = some t2 ∧ t2.size = t.size ∧
      ∀ p, lookup2 t2.data p = lookup2 t.data p) := by
  constructor
  · intro m
    rcases m with ⟨⟨s1, s2⟩, st, tr⟩
    simp [mtransposed]
  · intro t hw
    rcases tTransposed_correct t hw with ⟨t1, h1, hs1, hw1, hl1⟩
    have htw1 : TWf t1 := by
      rw [twf_iff, hs1]
      exact hw1
    rcases tTransposed_correct t1 htw1 with ⟨t2, h2, hs2, hw2, hl2⟩
    refine ⟨t1, t2, h1, h2, ?_, fun p => ?_⟩
    · rw [hs2, hs1]
    · rw [hl2 p, hs1]
      by_cases hp : p.1 < t.size.1 ∧ p.2 < t.size.2
      · rw [if_pos (by exact ⟨hp.1, hp.2⟩), hl1 (p.2, p.1)]
        rw [if_pos (by exact ⟨hp.2, hp.1⟩)]
      · rw [if_neg (by exact hp)]
        have hdw : dWf t.data t.size.1 t.size.2 := (twf_iff t).1 hw
        rw [lookup2_eq_none hdw p hp]

/-- Witness for C6's dense half at a concrete 2 by 3 matrix. -/
theorem claim_c6_witness :
    TWf ⟨(2, 3), [[1, 2, 3], [4, 5, 6]]⟩ ∧
    (∃ t1 t2, tTransposed ⟨(2, 3), [[1, 2, 3], [4, 5, 6]]⟩ = some t1 ∧
      tTransposed t1 = some t2 ∧ t2.size = (⟨(2, 3), [[1, 2, 3], [4, 5, 6]]⟩ : TableMatrix).size ∧
      ∀ p, lookup2 t2.data p = lookup2 (⟨(2, 3), [[1, 2, 3], [4, 5, 6]]⟩ : TableMatrix).data p) :=
  ⟨by decide, claim_c6_transpose_involution.2 ⟨(2, 3), [[1, 2, 3], [4, 5, 6]]⟩ (by decide)⟩

/-- The symmetric equality property the specification ascribes to `info_eq`,
written out from the claim: sizes match and every entry present in either
snapshot has a matching entry in the other within the tolerance. -/
def infoEqSpec (e c : MatrixInfo) : Prop :=
  e.size = c.size ∧
  (∀ ev ∈ e.values, ∃ cv ∈ c.values, cv.1 = ev.1 ∧ |ev.2 - cv.2| ≤ EPS) ∧
  (∀ cv ∈ c.values, ∃ ev ∈ e.values, ev.1 = cv.1 ∧ |ev.2 - cv.2| ≤ EPS)

instance (e c : MatrixInfo) : Decidable (infoEqSpec e c) := by
  unfold infoEqSpec
  infer_instance

/-- C7 (counterexample): `info_eq` returns `true` for a first snapshot holding
the lone entry `5` at `(0, 0)` against an empty second snapshot of the same
size, although the claimed symmetric matching condition fails — the entry
present only in the first snapshot is never examined. -/
theorem claim_c7_counterexample :
    info_eq ⟨(1, 1), [((0, 0), 5)]⟩ ⟨(1, 1), []⟩ = true ∧
    ¬ infoEqSpec ⟨(1, 1), [((0, 0), 5)]⟩ ⟨(1, 1), []⟩ := by
  constructor
  · decide
  · decide

/-- C7 (amended): `info_eq expected current` returns `true` exactly when the
sizes agree and every entry of `current` finds its position among `expected`'s
writes (last write per position winning) with values within the `1e-8`
tolerance; entries present only in `expected` are not checked. -/
theorem claim_c7_info_eq_amended :
    ∀ e c : MatrixInfo, info_eq e c = true ↔
      (e.size = c.size ∧
        ∀ cv ∈ c.values, ∃ w, lastW e.values cv.1 = some w ∧ |w - cv.2| ≤ EPS) :=
  fun e c => info_eq_iff e c

/-- C8 (counterexample): both operands of size `(2, 1)` — equal but not
square — multiply to completion, returning a (meaningless) `(2, 1)` result. -/
theorem claim_c8_counterexample :
    (2 : ℕ) ≠ 1 ∧
    (tMul ⟨(2, 1), [[1], [2]]⟩ ⟨(2, 1), [[1], [2]]⟩).isSome = true := by
  constructor
  · decide
  · decide

/-- C8 (amended): `TableMatrix::mul` passes its assertion exactly on equal
sizes, and then runs to completion precisely when the common size `(r, c)` has
`c ≤ r` or `r = 0`; with `0 < r < c` the inner loop indexes row `r` of the
second operand's backing array out of bounds and panics. -/
theorem claim_c8_dense_mul_completion :
    ∀ a b : TableMatrix, TWf a → TWf b →
      ((tMul a b).isSome = true ↔
        (a.size = b.size ∧ (a.size.2 ≤ a.size.1 ∨ a.size.1 = 0))) := by
  intro a b hwa hwb
  constructor
  · intro hs
    by_cases hsz : a.size = b.size
    · refine ⟨hsz, ?_⟩
      by_contra hc
      push_neg at hc
      have hb : tMul a b = none := by
        apply tMul_none_oob a b a.size.1 a.size.2 rfl (by rw [← hsz]) hwa hwb
        · omega
        · omega
      rw [hb] at hs
      exact Bool.noConfusion hs
    · rw [tMul_none_size a b hsz] at hs
      exact Bool.noConfusion hs
  · rintro ⟨hsz, hcase | hr0⟩
    · rcases tMul_some a b a.size.1 a.size.2 rfl (by rw [← hsz]) hwa hwb hcase with
        ⟨t, ht, _⟩
      rw [ht]
      rfl
    · have hb := tMul_rows_zero a b a.size.2 (by rw [← hr0]) (by rw [← hsz, ← hr0])
      rw [hb]
      rfl

/-- Witness for the amended C8 at the concrete size `(1, 2)` (more columns
than rows: the multiplication must panic). -/
theorem claim_c8_amended_witness :
    TWf ⟨(1, 2), [[1, 2]]⟩ ∧
    ((tMul ⟨(1, 2), [[1, 2]]⟩ ⟨(1, 2), [[1, 2]]⟩).isSome = true ↔
      ((⟨(1, 2), [[1, 2]]⟩ : TableMatrix).size = (⟨(1, 2), [[1, 2]]⟩ : TableMatrix).size ∧
        ((⟨(1, 2), [[1, 2]]⟩ : TableMatrix).size.2 ≤ (⟨(1, 2), [[1, 2]]⟩ : TableMatrix).size.1
          ∨ (⟨(1, 2), [[1, 2]]⟩ : TableMatrix).size.1 = 0))) :=
  ⟨by decide, claim_c8_dense_mul_completion ⟨(1, 2), [[1, 2]]⟩ ⟨(1, 2), [[1, 2]]⟩
    (by decide) (by decide)⟩

/-- C10: `SimpleMatrix::add` iterates only over `a`'s entries, so a position
stored in `b` but absent from `a` is missing from the result; consequently the
operation is not commutative — at the concrete pair (empty, [[1]]) the two
orders read different values at `(0, 0)`. -/
theorem claim_c10_simple_add_asymmetric :
    (∀ a b : SimpleMatrix, ∀ p : Pair, p ∈ b.values.map Prod.fst →
      p ∉ a.values.map Prod.fst → assocGet (sadd a b).values p = none) ∧
    sget (sadd ⟨(1, 1), []⟩ ⟨(1, 1), [((0, 0), 1)]⟩) (0, 0)
      ≠ sget (sadd ⟨(1, 1), [((0, 0), 1)]⟩ ⟨(1, 1), []⟩) (0, 0) := by
  constructor
  · intro a b p _ hpa
    exact sadd_fold_none b a.values ⟨a.size, []⟩ p hpa rfl
  · have h1 : sget (sadd ⟨(1, 1), []⟩ ⟨(1, 1), [((0, 0), 1)]⟩) (0, 0) = 0 := by
      norm_num [sadd, sget, assocGet, -Prod.mk_one_one, -Prod.mk_zero_zero]
    have h2 : sget (sadd ⟨(1, 1), [((0, 0), 1)]⟩ ⟨(1, 1), []⟩) (0, 0) = 1 := by
      norm_num [sadd, sget, sset, hashIns, assocRemove, assocGet, List.eraseP,
        -Prod.mk_one_one, -Prod.mk_zero_zero]
    rw [h1, h2]
    norm_num

/-- Witness for C10's universal half at a concrete pair: position `(0, 0)` is
stored in `b` and absent from `a`, and indeed absent from the sum. -/
theorem claim_c10_witness :
    ((0, 0) : Pair) ∈ ((⟨(1, 1), [((0, 0), 1)]⟩ : SimpleMatrix).values.map Prod.fst) ∧
    ((0, 0) : Pair) ∉ ((⟨(1, 1), []⟩ : SimpleMatrix).values.map Prod.fst) ∧
    assocGet (sadd ⟨(1, 1), []⟩ ⟨(1, 1), [((0, 0), 1)]⟩).values (0, 0) = none :=
  ⟨by decide, by decide,
    claim_c10_simple_add_asymmetric.1 ⟨(1, 1), []⟩ ⟨(1, 1), [((0, 0), 1)]⟩ (0, 0)
      (by decide) (by decide)⟩

/-- C9: the cross-check helper `mul<M>` of src/lib.rs and src/main.rs
transposes both reconstructed matrices and multiplies them in swapped order,
so the snapshot it returns is the transpose of the product `ainfo · binfo`:
it has dimensions `(binfo.cols, ainfo.rows)` and cell `(i, j)` reads the
product value at `(j, i)`. -/
theorem claim_c9_lib_mul_transposed :
    ∀ ainfo binfo : MatrixInfo, KeysNodup ainfo.values → KeysNodup binfo.values →
      ainfo.size.2 = binfo.size.1 →
      ∃ res, libMul hashIns hashAtv ainfo binfo = some res ∧
        res.size = (binfo.size.2, ainfo.size.1) ∧
        ∀ N, (∀ e ∈ ainfo.values, e.1.1 < N ∧ e.1.2 < N) →
          (∀ e ∈ binfo.values, e.1.1 < N ∧ e.1.2 < N) →
          ∀ i j, infoGetD res (i, j)
            = ∑ k ∈ Finset.range N, infoGetD ainfo (j, k) * infoGetD binfo (k, i) := by
  intro ainfo binfo hna hnb hcompat
  have hcompat2 : (mtransposed (mfromInfo hashIns binfo)).size.2
      = (mtransposed (mfromInfo hashIns ainfo)).size.1 := by
    show binfo.size.1 = ainfo.size.2
    exact hcompat.symm
  rcases mmul_correct_param hashInsOk hashAtvOk (mtransposed (mfromInfo hashIns binfo))
      (mtransposed (mfromInfo hashIns ainfo)) (mfromInfo_inv hashInsOk binfo)
      (mfromInfo_inv hashInsOk ainfo) hcompat2 with ⟨c, hc, hcs, hcf, hcinv, hcget⟩
  refine ⟨mtoInfo c, ?_, ?_, ?_⟩
  · show Option.map mtoInfo (mmul hashIns hashAtv (mtransposed (mfromInfo hashIns binfo))
        (mtransposed (mfromInfo hashIns ainfo))) = some (mtoInfo c)
    rw [hc]
    rfl
  · rw [show (mtoInfo c).size = c.size from rfl, hcs]
    rfl
  · intro N haN hbN i j
    rw [infoGetD_mtoInfo (hashInsOk.nodup _ hcinv) (i, j)]
    have hbbound : ∀ e ∈ mentries (mtransposed (mfromInfo hashIns binfo)), e.1.2 < N := by
      intro e he
      rw [mentries_mtransposed] at he
      rcases List.mem_map.1 he with ⟨f, hf, hfe⟩
      rw [← hfe]
      exact (mentries_bound hashInsOk binfo N hbN f hf).1
    rw [hcget N hbbound i j]
    apply Finset.sum_congr rfl
    intro k _
    rw [mget_mtransposed (mfromInfo hashIns binfo) (i, k),
      mget_mtransposed (mfromInfo hashIns ainfo) (k, j)]
    rw [mget_mfromInfo hashInsOk binfo (k, i), mget_mfromInfo hashInsOk ainfo (j, k)]
    ring

/-- Witness for C9: [[0,1],[0,0]] times [[1,2],[3,4]]. -/
theorem claim_c9_witness :
    KeysNodup (⟨(2, 2), [((0, 1), 1)]⟩ : MatrixInfo).values ∧ KeysNodup exA.values ∧
    (⟨(2, 2), [((0, 1), 1)]⟩ : MatrixInfo).size.2 = exA.size.1 ∧
    (∃ res, libMul hashIns hashAtv ⟨(2, 2), [((0, 1), 1)]⟩ exA = some res ∧
      res.size = (exA.size.2, (⟨(2, 2), [((0, 1), 1)]⟩ : MatrixInfo).size.1) ∧
      ∀ N, (∀ e ∈ (⟨(2, 2), [((0, 1), 1)]⟩ : MatrixInfo).values, e.1.1 < N ∧ e.1.2 < N) →
        (∀ e ∈ exA.values, e.1.1 < N ∧ e.1.2 < N) →
        ∀ i j, infoGetD res (i, j) = ∑ k ∈ Finset.range N,
          infoGetD ⟨(2, 2), [((0, 1), 1)]⟩ (j, k) * infoGetD exA (k, i)) :=
  ⟨by unfold KeysNodup; decide, by unfold KeysNodup; decide, by decide,
    claim_c9_lib_mul_transposed ⟨(2, 2), [((0, 1), 1)]⟩ exA (by unfold KeysNodup; decide)
      (by unfold KeysNodup; decide) (by decide)⟩

/-- C2: on square snapshots of equal size, the dense engine, the hash-sparse
engine and the tree-sparse engine all complete and their result snapshots
agree cell-by-cell within the interchange tolerance `EPS = 1e-8` (in this
exact-arithmetic model they agree exactly, so every difference is 0). -/
theorem claim_c2_engines_agree (n : ℕ) (i1 i2 : MatrixInfo)
    (hs1 : i1.size = (n, n)) (hs2 : i2.size = (n, n))
    (hin1 : ∀ e ∈ i1.values, e.1.1 < n ∧ e.1.2 < n)
    (hin2 : ∀ e ∈ i2.values, e.1.1 < n ∧ e.1.2 < n) :
    ∃ da db dm dsnap hm tm,
      tFromInfo i1 = some da ∧ tFromInfo i2 = some db ∧ tMul da db = some dm ∧
      tToInfo dm = some dsnap ∧
      mmul hashIns hashAtv (mfromInfo hashIns i1) (mfromInfo hashIns i2) = some hm ∧
      mmul (treeIns pairLt) (treeAtv natLt) (mfromInfo (treeIns pairLt) i1)
        (mfromInfo (treeIns pairLt) i2) = some tm ∧
      ∀ i j, i < n → j < n →
        |infoGetD dsnap (i, j) - infoGetD (mtoInfo hm) (i, j)| ≤ EPS ∧
        |infoGetD dsnap (i, j) - infoGetD (mtoInfo tm) (i, j)| ≤ EPS ∧
        |infoGetD (mtoInfo hm) (i, j) - infoGetD (mtoInfo tm) (i, j)| ≤ EPS := by
  rcases dense_mul_cell n i1 i2 hs1 hs2 hin1 hin2 with
    ⟨da, db, dm, dsnap, hda, hdb, hdm, hsnap, hdcell⟩
  rcases sparse_mul_cell hashInsOk hashAtvOk n i1 i2 hs1 hs2 hin1 hin2 with
    ⟨hm, hhm, _, hhcell⟩
  rcases sparse_mul_cell treeInsOk treeAtvOk n i1 i2 hs1 hs2 hin1 hin2 with
    ⟨tm, htm, _, htcell⟩
  refine ⟨da, db, dm, dsnap, hm, tm, hda, hdb, hdm, hsnap, hhm, htm,
    fun i j hi hj => ?_⟩
  rw [hdcell i j hi hj, hhcell i j, htcell i j]
  simp only [sub_self, abs_zero]
  norm_num [EPS]

/-- Witness for C2 at the spec example: `[[1,2],[3,4]]` times the 2×2
identity. -/
theorem claim_c2_witness :
    exA.size = (2, 2) ∧ exI.size = (2, 2) ∧
    (∀ e ∈ exA.values, e.1.1 < 2 ∧ e.1.2 < 2) ∧
    (∀ e ∈ exI.values, e.1.1 < 2 ∧ e.1.2 < 2) ∧
    (∃ da db dm dsnap hm tm,
      tFromInfo exA = some da ∧ tFromInfo exI = some db ∧ tMul da db = some dm ∧
      tToInfo dm = some dsnap ∧
      mmul hashIns hashAtv (mfromInfo hashIns exA) (mfromInfo hashIns exI) = some hm ∧
      mmul (treeIns pairLt) (treeAtv natLt) (mfromInfo (treeIns pairLt) exA)
        (mfromInfo (treeIns pairLt) exI) = some tm ∧
      ∀ i j, i < 2 → j < 2 →
        |infoGetD dsnap (i, j) - infoGetD (mtoInfo hm) (i, j)| ≤ EPS ∧
        |infoGetD dsnap (i, j) - infoGetD (mtoInfo tm) (i, j)| ≤ EPS ∧
        |infoGetD (mtoInfo hm) (i, j) - infoGetD (mtoInfo tm) (i, j)| ≤ EPS) :=
  ⟨by decide, by decide, by decide, by decide,
    claim_c2_engines_agree 2 exA exI (by decide) (by decide) (by decide) (by decide)⟩
